/-
Verification of the mbplox lexer (src/place.rs, src/scan.rs, src/lex.rs).

The Rust sources are embedded shallowly: the mutable `Scan` struct becomes a
record threaded explicitly through every operation, the `Chars` iterator plus
lookahead `Vec` become two lists of characters, and the unbounded `while`
loops become fueled recursions whose fuel (`remaining + 1`) provably exceeds
the number of iterations the loop can make, because every iteration of each
loop consumes at least one pending character.
-/
import Mathlib

set_option linter.unusedVariables false
set_option linter.unnecessarySeqFocus false
set_option maxHeartbeats 1000000

namespace Mbplox

/-- A (line, column) location in the source (src/place.rs, `Place`).
Both fields are 1-based. -/
structure Place where
  line : Nat
  column : Nat
deriving DecidableEq, Repr

/-- `Place::file_start` (src/place.rs:21-23). -/
def Place.file_start : Place := ⟨1, 1⟩

/-- `Place::new` (src/place.rs:26-30); the `assert!` debug checks are not modelled. -/
def Place.new (line column : Nat) : Place := ⟨line, column⟩

/-- Closed form of the tab-stop loop `loop { column += 1; if column % 8 == 1 { break } }`
in `Scan::take` (src/scan.rs:79-84) and of the equivalent
`column += 1; while column % 8 != 1 { column += 1 }` in `Place::advance`
(src/place.rs:38-41). `tabColumns_spec` below proves this is exactly what the loop
computes: the least column strictly greater than the current one congruent to 1 mod 8. -/
def tabColumns (column : Nat) : Nat := column + 8 - (column + 7) % 8

/-- `Place::advance` (src/place.rs:33-45). -/
def Place.advance (p : Place) (c : Char) : Place :=
  if c = '\n' then { line := p.line + 1, column := 1 }
  else if c = '\t' then { p with column := tabColumns p.column }
  else { p with column := p.column + 1 }

/-- Token kinds (src/lex.rs:15-60, `Tok`). The source stores in `Number` the `f64` value
parsed from the numeric lexeme by `parse().unwrap()`. IEEE-754 doubles cannot be reasoned
about here, so `Number` carries the exact numeric text handed to the parse instead; the
parse is a deterministic function of that text, and `numberTextAccepted` below models the
`f64::from_str` grammar to show the unwrap never panics on the texts the lexer produces. -/
inductive Tok where
  | Plus | Minus | Star | Slash | Comma | Dot | Semicolon
  | LeftParen | RightParen | LeftBrace | RightBrace
  | Bang | BangEqual | Equal | EqualEqual
  | Greater | GreaterEqual | Less | LessEqual
  | True | False
  | String (s : String)
  | Number (numText : String)
  | Identifier (s : String)
  | And | Class | Else | Fun | For | If | Nil | Or | Print
  | Return | Super | This | Var | While
deriving DecidableEq, Repr

/-- A lexical token (src/lex.rs:63-71). -/
structure Token where
  tok : Tok
  place : Place
  lexeme : String
deriving DecidableEq, Repr

/-- A tokenization error kind (src/lex.rs:90-96). -/
inductive ErrorKind where
  | UnexpectedCharacter (c : Char)
  | UnterminatedString
deriving DecidableEq, Repr

/-- A lexer error (src/lex.rs:74-80). -/
structure Error where
  place : Place
  kind : ErrorKind
deriving DecidableEq, Repr

/-- The character scanner (src/scan.rs:12-22). The Rust `input: Chars` iterator and the
`lookahead: Vec<char>` buffer are modelled as two lists of characters. -/
structure Scan where
  input : List Char
  lookahead : List Char
  current_token : String
  token_start_line : Nat
  line_number : Nat
  column : Nat
  token_start_column : Nat
deriving DecidableEq, Repr

/-- `Scan::new` (src/scan.rs:25-35). -/
def Scan.new (source : String) : Scan :=
  { input := source.data, lookahead := [], current_token := "",
    line_number := 1, column := 1, token_start_line := 1, token_start_column := 1 }

/-- The characters not yet consumed, in order: the lookahead buffer followed by the rest
of the input (verification-side view of the scanner state). -/
def Scan.pending (s : Scan) : List Char := s.lookahead ++ s.input

/-- The number of characters not yet consumed; used to size the fuel of the loops below. -/
def Scan.remaining (s : Scan) : Nat := s.pending.length

/-- `Scan::start_token` (src/scan.rs:37-41). -/
def Scan.start_token (s : Scan) : Scan :=
  { s with current_token := "", token_start_line := s.line_number,
           token_start_column := s.column }

/-- Modelled from the spec: `Scan::token_start()` is called from lex.rs (lines 154, 163,
193, 199) but its definition is absent from src/scan.rs, which provides only the two field
getters `token_start_line` and `token_start_column`. The spec defines it as
"`token_start() -> Position`: the position recorded at the last `start_token()`". -/
def Scan.token_start (s : Scan) : Place := ⟨s.token_start_line, s.token_start_column⟩

/-- `Scan::next_column` (src/scan.rs:58-60). -/
def Scan.next_column (s : Scan) : Nat := s.column

/-- The line/column/accumulator update performed by `Scan::take` (src/scan.rs:74-89). -/
def Scan.record (s : Scan) (c : Char) : Scan :=
  let s1 :=
    if c = '\n' then { s with line_number := s.line_number + 1, column := 1 }
    else if c = '\t' then { s with column := tabColumns s.column }
    else { s with column := s.column + 1 }
  { s1 with current_token := s1.current_token.push c }

/-- `Scan::take` (src/scan.rs:68-90): consume one character, drawing from the lookahead
buffer first. -/
def Scan.take (s : Scan) : Option Char × Scan :=
  match s.lookahead with
  | c :: la => (some c, Scan.record { s with lookahead := la } c)
  | [] =>
    match s.input with
    | [] => (none, s)
    | c :: rest => (some c, Scan.record { s with input := rest } c)

/-- The buffer-filling loop of `Scan::peek_nth` (src/scan.rs:145-151): move up to `k`
characters from the input into the lookahead buffer, stopping early if the input ends. -/
def Scan.fill : Scan → Nat → Scan
  | s, 0 => s
  | s, k + 1 =>
    match s.input with
    | [] => s
    | c :: rest => Scan.fill { s with lookahead := s.lookahead ++ [c], input := rest } k

/-- `Scan::peek_nth` (src/scan.rs:144-153). -/
def Scan.peek_nth (s : Scan) (n : Nat) : Option Char × Scan :=
  let s1 := Scan.fill s (n + 1 - s.lookahead.length)
  (s1.lookahead[n]?, s1)

/-- `Scan::peek` (src/scan.rs:131-133). -/
def Scan.peek (s : Scan) : Option Char × Scan := s.peek_nth 0

/-- `Scan::peek2` (src/scan.rs:136-142). The Rust code indexes `buf[0]` and `buf[1]`,
which exist whenever `peek_nth(1)` succeeded; `getD` supplies an unreachable default. -/
def Scan.peek2 (s : Scan) : Option (Char × Char) × Scan :=
  match s.peek_nth 1 with
  | (some _, s1) => (some (s1.lookahead.getD 0 ' ', s1.lookahead.getD 1 ' '), s1)
  | (none, s1) => (none, s1)

/-- `Scan::take_if` (src/scan.rs:96-101). -/
def Scan.take_if (s : Scan) (f : Char → Bool) : Option Char × Scan :=
  match s.peek with
  | (some c, s1) => if f c then s1.take else (none, s1)
  | (none, s1) => (none, s1)

/-- The loop of `Scan::take_while` (src/scan.rs:106-111), with explicit fuel. -/
def take_while_go (f : Char → Bool) : Nat → Scan → Scan
  | 0, s => s
  | fuel + 1, s =>
    match s.take_if f with
    | (some _, s1) => take_while_go f fuel s1
    | (none, s1) => s1

/-- `Scan::take_while` (src/scan.rs:106-111). Each successful `take_if` consumes one
pending character, so `remaining + 1` fuel runs the loop to its natural exit. -/
def Scan.take_while (s : Scan) (f : Char → Bool) : Scan :=
  take_while_go f (s.remaining + 1) s

/-- The loop of `Scan::take_until` (src/scan.rs:116-122), with explicit fuel. -/
def take_until_go (f : Char → Bool) : Nat → Scan → Scan
  | 0, s => s
  | fuel + 1, s =>
    match s.take with
    | (some c, s1) => if f c then s1 else take_until_go f fuel s1
    | (none, s1) => s1

/-- `Scan::take_until` (src/scan.rs:116-122): take characters up to and including a
terminator. -/
def Scan.take_until (s : Scan) (f : Char → Bool) : Scan :=
  take_until_go f (s.remaining + 1) s

/-- `Scan::take_exactly` (src/scan.rs:126-128). -/
def Scan.take_exactly (s : Scan) (c : Char) : Bool × Scan :=
  match s.take_if (fun cc => cc == c) with
  | (some _, s1) => (true, s1)
  | (none, s1) => (false, s1)

/-- `Scan::is_empty` (src/scan.rs:156-158). -/
def Scan.is_empty (s : Scan) : Bool × Scan :=
  match s.peek with
  | (some _, s1) => (false, s1)
  | (none, s1) => (true, s1)

/-- The token-emission record at src/lex.rs:160-164: a token carrying the accumulated
lexeme and the place recorded at the start mark. -/
def mkToken (tok : Tok) (scan : Scan) : Token :=
  { tok := tok, place := scan.token_start, lexeme := scan.current_token }

/-- The error-emission record at src/lex.rs:152-158. -/
def mkError (c : Char) (scan : Scan) : Error :=
  { place := scan.token_start, kind := ErrorKind.UnexpectedCharacter c }

/-- `number` (src/lex.rs:169-183). The final `parse().unwrap()` into `f64` is modelled by
carrying the accumulated text (see `Tok.Number`). -/
def number (scan : Scan) : Tok × Scan :=
  let scan := scan.take_while (fun c => c.isDigit)
  match scan.peek2 with
  | (some (c1, c2), scan) =>
    if c1 = '.' ∧ c2.isDigit then
      let scan := (scan.take_exactly '.').2
      let scan := scan.take_while (fun c => c.isDigit)
      (Tok.Number scan.current_token, scan)
    else (Tok.Number scan.current_token, scan)
  | (none, scan) => (Tok.Number scan.current_token, scan)

/-- The string-body loop of `string` (src/lex.rs:187-190), with explicit fuel. -/
def string_go : Nat → Scan → String → String × Scan
  | 0, scan, acc => (acc, scan)
  | fuel + 1, scan, acc =>
    match scan.take_if (fun c => c != '"') with
    | (some c, scan) => string_go fuel scan (acc.push c)
    | (none, scan) => (acc, scan)

/-- `string` (src/lex.rs:185-202). -/
def string (scan : Scan) : Except Error Token × Scan :=
  let (s, scan) := string_go (scan.remaining + 1) scan ""
  match scan.take_exactly '"' with
  | (false, scan) =>
    (Except.error { place := scan.token_start, kind := ErrorKind.UnterminatedString }, scan)
  | (true, scan) =>
    (Except.ok { tok := Tok.String s, place := scan.token_start,
                 lexeme := scan.current_token }, scan)

/-- The keyword table of `word` (src/lex.rs:206-224): the literal spelling of the scanned
word is matched case-sensitively against the keywords, else it is an identifier. -/
def word_tok (s : String) : Tok :=
  match s with
  | "and" => Tok.And
  | "class" => Tok.Class
  | "else" => Tok.Else
  | "false" => Tok.False
  | "for" => Tok.For
  | "fun" => Tok.Fun
  | "if" => Tok.If
  | "nil" => Tok.Nil
  | "or" => Tok.Or
  | "print" => Tok.Print
  | "return" => Tok.Return
  | "super" => Tok.Super
  | "this" => Tok.This
  | "true" => Tok.True
  | "var" => Tok.Var
  | "while" => Tok.While
  | s => Tok.Identifier s

/-- `word` (src/lex.rs:204-225). -/
def word (scan : Scan) : Tok × Scan :=
  let scan := scan.take_while (fun c => c.isAlphanum || c == '_')
  (word_tok scan.current_token, scan)

/-- The classification arms of the `lex` loop body (src/lex.rs:114-159): branch on the
consumed character, following the `match` arms in source order. -/
def lex_arms (c : Char) (scan : Scan) : Option (Except Error Token) × Scan :=
  if c = '\n' ∨ c = ' ' ∨ c = '\t' ∨ c = '\r' then (none, scan)
    else if c = '+' then (some (Except.ok (mkToken Tok.Plus scan)), scan)
    else if c = '*' then (some (Except.ok (mkToken Tok.Star scan)), scan)
    else if c = '-' then (some (Except.ok (mkToken Tok.Minus scan)), scan)
    else if c = '.' then (some (Except.ok (mkToken Tok.Dot scan)), scan)
    else if c = '/' then
      match scan.take_exactly '/' with
      | (true, scan) => (none, scan.take_until (fun cc => cc == '\n'))
      | (false, scan) => (some (Except.ok (mkToken Tok.Slash scan)), scan)
    else if c = ';' then (some (Except.ok (mkToken Tok.Semicolon scan)), scan)
    else if c = ',' then (some (Except.ok (mkToken Tok.Comma scan)), scan)
    else if c = '!' then
      match scan.take_exactly '=' with
      | (true, scan) => (some (Except.ok (mkToken Tok.BangEqual scan)), scan)
      | (false, scan) => (some (Except.ok (mkToken Tok.Bang scan)), scan)
    else if c = '=' then
      match scan.take_exactly '=' with
      | (true, scan) => (some (Except.ok (mkToken Tok.EqualEqual scan)), scan)
      | (false, scan) => (some (Except.ok (mkToken Tok.Equal scan)), scan)
    else if c.isDigit then
      match number scan with
      | (tok, scan) => (some (Except.ok (mkToken tok scan)), scan)
    else if c = '{' then (some (Except.ok (mkToken Tok.LeftBrace scan)), scan)
    else if c = '}' then (some (Except.ok (mkToken Tok.RightBrace scan)), scan)
    else if c = '(' then (some (Except.ok (mkToken Tok.LeftParen scan)), scan)
    else if c = ')' then (some (Except.ok (mkToken Tok.RightParen scan)), scan)
    else if c = '<' then
      match scan.take_exactly '=' with
      | (true, scan) => (some (Except.ok (mkToken Tok.LessEqual scan)), scan)
      | (false, scan) => (some (Except.ok (mkToken Tok.Less scan)), scan)
    else if c = '>' then
      match scan.take_exactly '=' with
      | (true, scan) => (some (Except.ok (mkToken Tok.GreaterEqual scan)), scan)
      | (false, scan) => (some (Except.ok (mkToken Tok.Greater scan)), scan)
    else if c = '"' then
      match string scan with
      | (r, scan) => (some r, scan)
    else if c.isAlpha ∨ c = '_' then
      match word scan with
      | (tok, scan) => (some (Except.ok (mkToken tok scan)), scan)
    else if c = '#' then
      if scan.next_column = 2 then
        match scan.take_exactly '!' with
        | (true, scan) => (none, scan.take_until (fun cc => cc == '\n'))
        | (false, scan) => (some (Except.error (mkError c scan)), scan)
      else (some (Except.error (mkError c scan)), scan)
    else (some (Except.error (mkError c scan)), scan)

/-- One iteration of the `lex` loop body (src/lex.rs:112-165): mark the token start,
consume one character, classify it through `lex_arms`, and return the emitted entry
(if any) with the scanner state. The `(none, scan)` on a failed `take` mirrors a
`take().unwrap()` that cannot fail, since `lex` only runs the body when the scanner
is non-empty. -/
def lex_step (scan : Scan) : Option (Except Error Token) × Scan :=
  let scan := scan.start_token
  match scan.take with
  | (none, scan) => (none, scan)
  | (some c, scan) => lex_arms c scan

/-- The `while !scan.is_empty()` loop of `lex` (src/lex.rs:112-165), with explicit fuel.
Every iteration whose `is_empty` check fails consumes at least one pending character, so
`remaining + 1` fuel runs the loop to its natural exit. -/
def lex_go : Nat → Scan → List (Except Error Token)
  | 0, _ => []
  | fuel + 1, scan =>
    match scan.is_empty with
    | (true, _) => []
    | (false, scan) =>
      match lex_step scan with
      | (some e, scan) => e :: lex_go fuel scan
      | (none, scan) => lex_go fuel scan

/-- `lex` (src/lex.rs:109-167): lex Lox source into tokens and tokenization errors. -/
def lex (source : String) : List (Except Error Token) :=
  lex_go (source.length + 1) (Scan.new source)

instance : DecidableEq (Except Error Token) := fun a b =>
  match a, b with
  | Except.ok x, Except.ok y =>
    if h : x = y then isTrue (by rw [h]) else isFalse (by intro hc; cases hc; exact h rfl)
  | Except.error x, Except.error y =>
    if h : x = y then isTrue (by rw [h]) else isFalse (by intro hc; cases hc; exact h rfl)
  | Except.ok _, Except.error _ => isFalse (by intro hc; cases hc)
  | Except.error _, Except.ok _ => isFalse (by intro hc; cases hc)

/-- The line update performed for one consumed character (src/scan.rs:74-76). -/
def nextLine (c : Char) (line : Nat) : Nat := if c = '\n' then line + 1 else line

/-- The column update performed for one consumed character (src/scan.rs:74-87). -/
def nextColumn (c : Char) (col : Nat) : Nat :=
  if c = '\n' then 1 else if c = '\t' then tabColumns col else col + 1

/-- `tabColumns` computes exactly what the tab-stop loops in `Scan::take` and
`Place::advance` compute: the least column strictly above the current one that is
congruent to 1 modulo 8. -/
theorem tabColumns_spec (col : Nat) :
    tabColumns col % 8 = 1 ∧ col < tabColumns col ∧
      ∀ m, col < m → m % 8 = 1 → tabColumns col ≤ m := by
  unfold tabColumns
  exact ⟨by omega, by omega, fun m hm hmod => by omega⟩

/-- Two scanner states that agree on every observable: the pending characters, the
token accumulator, the position, and the recorded token start. States related this way
are indistinguishable to the lexer (they may split `pending` differently between the
lookahead buffer and the input). -/
structure ObsEq (s t : Scan) : Prop where
  pending : t.pending = s.pending
  current : t.current_token = s.current_token
  line : t.line_number = s.line_number
  column : t.column = s.column
  tsl : t.token_start_line = s.token_start_line
  tsc : t.token_start_column = s.token_start_column

theorem obsEq_refl (s : Scan) : ObsEq s s := ⟨rfl, rfl, rfl, rfl, rfl, rfl⟩

theorem obsEq_trans {s t u : Scan} (h1 : ObsEq s t) (h2 : ObsEq t u) : ObsEq s u := by
  exact ⟨h2.pending.trans h1.pending, h2.current.trans h1.current,
    h2.line.trans h1.line, h2.column.trans h1.column,
    h2.tsl.trans h1.tsl, h2.tsc.trans h1.tsc⟩

/-- `take` on an exhausted scan is the identity. -/
theorem take_nil {s : Scan} (h : s.pending = []) : s.take = (none, s) := by
  have h2 := List.append_eq_nil.mp h
  simp [Scan.take, h2.1, h2.2]

/-- `take` on a non-exhausted scan consumes exactly the first pending character,
appends it to the token accumulator, advances the position by it, and leaves the
recorded token start alone. -/
theorem take_cons {s : Scan} {c : Char} {rest : List Char} (h : s.pending = c :: rest) :
    (s.take).1 = some c ∧
    (s.take).2.pending = rest ∧
    (s.take).2.current_token = s.current_token.push c ∧
    (s.take).2.line_number = nextLine c s.line_number ∧
    (s.take).2.column = nextColumn c s.column ∧
    (s.take).2.token_start_line = s.token_start_line ∧
    (s.take).2.token_start_column = s.token_start_column := by
  rcases hla : s.lookahead with _ | ⟨a, la⟩
  · have hin : s.input = c :: rest := by
      simpa [Scan.pending, hla] using h
    simp only [Scan.take, hla, hin, Scan.record, nextLine, nextColumn]
    by_cases h1 : c = '\n' <;> by_cases h2 : c = '\t' <;>
      simp_all [Scan.pending]
  · have hac : a = c ∧ la ++ s.input = rest := by
      have := h
      simp only [Scan.pending, hla, List.cons_append, List.cons.injEq] at this
      exact this
    obtain ⟨rfl, hrest⟩ := hac
    simp only [Scan.take, hla, Scan.record, nextLine, nextColumn]
    by_cases h1 : a = '\n' <;> by_cases h2 : a = '\t' <;>
      simp_all [Scan.pending]

/-- The buffer-filling loop only moves characters between the two halves of `pending`:
every observable is untouched, and the buffer grows to the requested length unless the
input runs out first. -/
theorem fill_spec (k : Nat) (s : Scan) :
    ObsEq s (s.fill k) ∧
      (s.fill k).lookahead.length = min (s.lookahead.length + k) s.pending.length := by
  induction k generalizing s with
  | zero =>
    refine ⟨obsEq_refl s, ?_⟩
    simp [Scan.fill, Scan.pending]
  | succ k ih =>
    rcases hin : s.input with _ | ⟨c, rest⟩
    · refine ⟨by simp [Scan.fill, hin, obsEq_refl], ?_⟩
      simp [Scan.fill, hin, Scan.pending]
    · have heq : Scan.fill s (k + 1) =
          Scan.fill { s with lookahead := s.lookahead ++ [c], input := rest } k := by
        simp [Scan.fill, hin]
      have hmid : ObsEq s { s with lookahead := s.lookahead ++ [c], input := rest } := by
        constructor <;> simp [Scan.pending, hin]
      obtain ⟨h1, h2⟩ := ih { s with lookahead := s.lookahead ++ [c], input := rest }
      constructor
      · rw [heq]
        exact obsEq_trans hmid h1
      · rw [heq, h2]
        have hp : ({ s with lookahead := s.lookahead ++ [c], input := rest } : Scan).pending
            = s.pending := hmid.pending
        simp only [Scan.pending] at hp ⊢
        simp only [hp]
        simp [hin]
        omega

/-- `peek_nth` returns the n-th pending character and changes no observable. -/
theorem peek_nth_spec (s : Scan) (n : Nat) :
    (s.peek_nth n).1 = s.pending[n]? ∧ ObsEq s (s.peek_nth n).2 := by
  obtain ⟨h1, h2⟩ := fill_spec (n + 1 - s.lookahead.length) s
  unfold Scan.peek_nth
  refine ⟨?_, h1⟩
  show (s.fill (n + 1 - s.lookahead.length)).lookahead[n]? = s.pending[n]?
  have hp : (s.fill (n + 1 - s.lookahead.length)).pending = s.pending := h1.pending
  set t := s.fill (n + 1 - s.lookahead.length) with ht
  by_cases hlt : n < t.lookahead.length
  · rw [← hp, Scan.pending, List.getElem?_append, if_pos hlt]
  · have hla : s.lookahead.length ≤ s.pending.length := by
      simp [Scan.pending]
    have hn1 : s.pending.length ≤ n := by omega
    have hnone : t.lookahead[n]? = none := by
      rw [List.getElem?_eq_none]
      omega
    rw [hnone, Eq.comm, List.getElem?_eq_none]
    omega

/-- After `peek_nth n` on a scan with more than `n` pending characters, the first
`n + 1` slots of the lookahead buffer hold the corresponding pending characters. -/
theorem peek_nth_snd_lookahead (s : Scan) (n k : Nat) (hk : k ≤ n)
    (hn : n < s.pending.length) :
    (s.peek_nth n).2.lookahead[k]? = s.pending[k]? := by
  obtain ⟨h1, h2⟩ := fill_spec (n + 1 - s.lookahead.length) s
  unfold Scan.peek_nth
  show (s.fill (n + 1 - s.lookahead.length)).lookahead[k]? = s.pending[k]?
  have hp : (s.fill (n + 1 - s.lookahead.length)).pending = s.pending := h1.pending
  set t := s.fill (n + 1 - s.lookahead.length) with ht
  have hla : s.lookahead.length ≤ s.pending.length := by
    simp [Scan.pending]
  have hlt : k < t.lookahead.length := by omega
  rw [← hp, Scan.pending, List.getElem?_append, if_pos hlt]

/-- `peek` returns the first pending character and changes no observable. -/
theorem peek_spec (s : Scan) :
    (s.peek).1 = s.pending.head? ∧ ObsEq s (s.peek).2 := by
  obtain ⟨h1, h2⟩ := peek_nth_spec s 0
  exact ⟨by rw [Scan.peek, h1, List.head?_eq_getElem?], h2⟩

/-- `is_empty` reports whether any character is pending and changes no observable. -/
theorem is_empty_spec (s : Scan) :
    (s.is_empty).1 = s.pending.isEmpty ∧ ObsEq s (s.is_empty).2 := by
  obtain ⟨h1, h2⟩ := peek_spec s
  unfold Scan.is_empty
  rcases hp : s.peek with ⟨oc, s1⟩
  rw [hp] at h1 h2
  rcases hpend : s.pending with _ | ⟨c, rest⟩ <;> rw [hpend] at h1 <;> simp at h1 <;>
    simp_all

/-- `peek2` returns the first two pending characters when at least two are pending. -/
theorem peek2_cons2 {s : Scan} {a b : Char} {rest : List Char}
    (h : s.pending = a :: b :: rest) :
    (s.peek2).1 = some (a, b) ∧ ObsEq s (s.peek2).2 := by
  obtain ⟨hfst, hobs⟩ := peek_nth_spec s 1
  have hplen : 1 < s.pending.length := by rw [h]; simp
  have h0 : (s.peek_nth 1).2.lookahead[0]? = some a := by
    rw [peek_nth_snd_lookahead s 1 0 (by omega) hplen, h]
    simp
  have h1 : (s.peek_nth 1).2.lookahead[1]? = some b := by
    rw [peek_nth_snd_lookahead s 1 1 (by omega) hplen, h]
    simp
  have hfst2 : (s.peek_nth 1).1 = some b := by
    rw [hfst, h]
    simp
  unfold Scan.peek2
  rcases hp : s.peek_nth 1 with ⟨oc, s1⟩
  rw [hp] at hfst2 hobs h0 h1
  subst hfst2
  refine ⟨?_, hobs⟩
  simp [List.getD_eq_getElem?_getD, h0, h1]

/-- `peek2` returns nothing when fewer than two characters are pending. -/
theorem peek2_short {s : Scan} (h : s.pending.length ≤ 1) :
    (s.peek2).1 = none ∧ ObsEq s (s.peek2).2 := by
  obtain ⟨h1, h2⟩ := peek_nth_spec s 1
  unfold Scan.peek2
  rcases hp : s.peek_nth 1 with ⟨oc, s1⟩
  rw [hp] at h1 h2
  have : s.pending[1]? = none := by rw [List.getElem?_eq_none]; omega
  rw [this] at h1
  subst h1
  exact ⟨rfl, h2⟩

/-- `take_if` on an exhausted scan returns nothing and changes no observable. -/
theorem take_if_nil {s : Scan} {f : Char → Bool} (h : s.pending = []) :
    (s.take_if f).1 = none ∧ ObsEq s (s.take_if f).2 := by
  obtain ⟨h1, h2⟩ := peek_spec s
  unfold Scan.take_if
  rcases hp : s.peek with ⟨oc, s1⟩
  rw [hp] at h1 h2
  rw [h] at h1
  simp at h1
  subst h1
  exact ⟨rfl, h2⟩

/-- `take_if` leaves a character failing the predicate unconsumed. -/
theorem take_if_neg {s : Scan} {f : Char → Bool} {c : Char} {rest : List Char}
    (h : s.pending = c :: rest) (hf : f c = false) :
    (s.take_if f).1 = none ∧ ObsEq s (s.take_if f).2 := by
  obtain ⟨h1, h2⟩ := peek_spec s
  unfold Scan.take_if
  rcases hp : s.peek with ⟨oc, s1⟩
  rw [hp] at h1 h2
  rw [h] at h1
  simp at h1
  subst h1
  simp only [hf]
  exact ⟨by simp, h2⟩

/-- `take_if` consumes a character satisfying the predicate, exactly as `take` does. -/
theorem take_if_pos {s : Scan} {f : Char → Bool} {c : Char} {rest : List Char}
    (h : s.pending = c :: rest) (hf : f c = true) :
    (s.take_if f).1 = some c ∧
    (s.take_if f).2.pending = rest ∧
    (s.take_if f).2.current_token = s.current_token.push c ∧
    (s.take_if f).2.line_number = nextLine c s.line_number ∧
    (s.take_if f).2.column = nextColumn c s.column ∧
    (s.take_if f).2.token_start_line = s.token_start_line ∧
    (s.take_if f).2.token_start_column = s.token_start_column := by
  obtain ⟨h1, h2⟩ := peek_spec s
  unfold Scan.take_if
  rcases hp : s.peek with ⟨oc, s1⟩
  rw [hp] at h1 h2
  rw [h] at h1
  simp at h1
  subst h1
  simp only [hf, if_true]
  have hs1 : s1.pending = c :: rest := by rw [h2.pending, h]
  obtain ⟨t1, t2, t3, t4, t5, t6, t7⟩ := take_cons hs1
  exact ⟨t1, by rw [t2], by rw [t3, h2.current], by rw [t4, h2.line],
    by rw [t5, h2.column], by rw [t6, h2.tsl], by rw [t7, h2.tsc]⟩

/-- `take_exactly` consumes a matching next character. -/
theorem take_exactly_pos {s : Scan} {c : Char} {rest : List Char}
    (h : s.pending = c :: rest) :
    (s.take_exactly c).1 = true ∧
    (s.take_exactly c).2.pending = rest ∧
    (s.take_exactly c).2.current_token = s.current_token.push c ∧
    (s.take_exactly c).2.line_number = nextLine c s.line_number ∧
    (s.take_exactly c).2.column = nextColumn c s.column ∧
    (s.take_exactly c).2.token_start_line = s.token_start_line ∧
    (s.take_exactly c).2.token_start_column = s.token_start_column := by
  obtain ⟨t1, t2, t3, t4, t5, t6, t7⟩ := take_if_pos h (f := fun cc => cc == c) (by simp)
  unfold Scan.take_exactly
  rcases hp : s.take_if (fun cc => cc == c) with ⟨oc, s1⟩
  rw [hp] at t1 t2 t3 t4 t5 t6 t7
  simp at t1
  subst t1
  exact ⟨rfl, t2, t3, t4, t5, t6, t7⟩

/-- `take_exactly` leaves a non-matching next character unconsumed. -/
theorem take_exactly_neg {s : Scan} {c c' : Char} {rest : List Char}
    (h : s.pending = c' :: rest) (hne : c' ≠ c) :
    (s.take_exactly c).1 = false ∧ ObsEq s (s.take_exactly c).2 := by
  obtain ⟨t1, t2⟩ := take_if_neg h (f := fun cc => cc == c) (by simp [hne])
  unfold Scan.take_exactly
  rcases hp : s.take_if (fun cc => cc == c) with ⟨oc, s1⟩
  rw [hp] at t1 t2
  subst t1
  exact ⟨rfl, t2⟩

/-- `take_exactly` on an exhausted scan fails and changes no observable. -/
theorem take_exactly_nil {s : Scan} {c : Char} (h : s.pending = []) :
    (s.take_exactly c).1 = false ∧ ObsEq s (s.take_exactly c).2 := by
  obtain ⟨t1, t2⟩ := take_if_nil h (f := fun cc => cc == c)
  unfold Scan.take_exactly
  rcases hp : s.take_if (fun cc => cc == c) with ⟨oc, s1⟩
  rw [hp] at t1 t2
  subst t1
  exact ⟨rfl, t2⟩

/-- Relates the states before and after an operation that consumed exactly the
characters `cs` through `take`: the pending stream lost the prefix `cs`, the token
accumulator gained exactly `cs`, and the recorded token start is untouched. This is
the bookkeeping invariant behind "lexeme = characters consumed since the start mark". -/
structure Consumes (s t : Scan) (cs : List Char) : Prop where
  pending : s.pending = cs ++ t.pending
  current : t.current_token.data = s.current_token.data ++ cs
  tsl : t.token_start_line = s.token_start_line
  tsc : t.token_start_column = s.token_start_column

theorem consumes_refl (s : Scan) : Consumes s s [] :=
  ⟨by simp, by simp, Eq.refl _, Eq.refl _⟩

theorem Consumes.of_obsEq {s t : Scan} (h : ObsEq s t) : Consumes s t [] :=
  ⟨by simp [h.pending], by simp [h.current], h.tsl, h.tsc⟩

theorem consumes_trans {s t u : Scan} {cs ds : List Char}
    (h1 : Consumes s t cs) (h2 : Consumes t u ds) : Consumes s u (cs ++ ds) := by
  refine ⟨?_, ?_, h2.tsl.trans h1.tsl, h2.tsc.trans h1.tsc⟩
  · rw [h1.pending, h2.pending, List.append_assoc]
  · rw [h2.current, h1.current, List.append_assoc]

/-- A successful `take` consumes exactly one character. -/
theorem take_consumes {s t : Scan} {c : Char} (h : s.take = (some c, t)) :
    Consumes s t [c] := by
  rcases hpend : s.pending with _ | ⟨a, rest⟩
  · rw [take_nil hpend] at h
    cases h
  · obtain ⟨t1, t2, t3, t4, t5, t6, t7⟩ := take_cons hpend
    rw [h] at t1 t2 t3 t6 t7
    simp at t1
    subst t1
    exact ⟨by rw [hpend, t2]; rfl, by rw [t3, String.data_push], t6, t7⟩

/-- A successful `take_if` consumes exactly one character. -/
theorem take_if_consumes_some {s t : Scan} {f : Char → Bool} {c : Char}
    (h : s.take_if f = (some c, t)) : Consumes s t [c] := by
  rcases hpend : s.pending with _ | ⟨a, rest⟩
  · obtain ⟨t1, _⟩ := take_if_nil hpend (f := f)
    rw [h] at t1
    cases t1
  · by_cases hf : f a = true
    · obtain ⟨t1, t2, t3, t4, t5, t6, t7⟩ := take_if_pos hpend hf
      rw [h] at t1 t2 t3 t6 t7
      simp at t1
      subst t1
      exact ⟨by rw [hpend, t2]; rfl, by rw [t3, String.data_push], t6, t7⟩
    · obtain ⟨t1, _⟩ := take_if_neg hpend (Bool.not_eq_true _ ▸ hf)
      rw [h] at t1
      cases t1

/-- A failing `take_if` consumes nothing. -/
theorem take_if_consumes_none {s t : Scan} {f : Char → Bool}
    (h : s.take_if f = (none, t)) : Consumes s t [] := by
  rcases hpend : s.pending with _ | ⟨a, rest⟩
  · obtain ⟨t1, t2⟩ := take_if_nil hpend (f := f)
    rw [h] at t2
    exact Consumes.of_obsEq t2
  · by_cases hf : f a = true
    · obtain ⟨t1, _⟩ := take_if_pos hpend hf
      rw [h] at t1
      cases t1
    · obtain ⟨t1, t2⟩ := take_if_neg hpend (Bool.not_eq_true _ ▸ hf)
      rw [h] at t2
      exact Consumes.of_obsEq t2

/-- `take_exactly` consumes one character or nothing. -/
theorem take_exactly_consumes {s t : Scan} {c : Char} {b : Bool}
    (h : s.take_exactly c = (b, t)) : Consumes s t (if b then [c] else []) := by
  unfold Scan.take_exactly at h
  rcases hp : s.take_if (fun cc => cc == c) with ⟨oc, s1⟩
  rw [hp] at h
  rcases oc with _ | c'
  · cases h
    simpa using take_if_consumes_none hp
  · cases h
    have hcon := take_if_consumes_some hp
    have hc : c' = c := by
      rcases hpend : s.pending with _ | ⟨a, rest⟩
      · obtain ⟨t1, _⟩ := take_if_nil (f := fun cc => cc == c) hpend
        rw [hp] at t1
        cases t1
      · by_cases hf : (a == c) = true
        · obtain ⟨t1, _⟩ := take_if_pos (f := fun cc => cc == c) hpend hf
          rw [hp] at t1
          simp at t1 hf
          exact t1.trans hf
        · obtain ⟨t1, _⟩ := take_if_neg (f := fun cc => cc == c) hpend
            (Bool.not_eq_true _ ▸ hf)
          rw [hp] at t1
          cases t1
    subst hc
    simpa using hcon

/-- The `take_while` loop consumes some run of characters. -/
theorem take_while_go_consumes (f : Char → Bool) :
    ∀ (fuel : Nat) (s : Scan), ∃ cs, Consumes s (take_while_go f fuel s) cs := by
  intro fuel
  induction fuel with
  | zero => exact fun s => ⟨[], consumes_refl s⟩
  | succ fuel ih =>
    intro s
    rcases hp : s.take_if f with ⟨oc, s1⟩
    rcases oc with _ | c
    · refine ⟨[], ?_⟩
      simp only [take_while_go, hp]
      exact take_if_consumes_none hp
    · obtain ⟨ds, hds⟩ := ih s1
      refine ⟨[c] ++ ds, ?_⟩
      simp only [take_while_go, hp]
      exact consumes_trans (take_if_consumes_some hp) hds

/-- The `take_until` loop consumes some run of characters. -/
theorem take_until_go_consumes (f : Char → Bool) :
    ∀ (fuel : Nat) (s : Scan), ∃ cs, Consumes s (take_until_go f fuel s) cs := by
  intro fuel
  induction fuel with
  | zero => exact fun s => ⟨[], consumes_refl s⟩
  | succ fuel ih =>
    intro s
    rcases hp : s.take with ⟨oc, s1⟩
    rcases oc with _ | c
    · refine ⟨[], ?_⟩
      simp only [take_until_go, hp]
      rcases hpend : s.pending with _ | ⟨a, rest⟩
      · rw [take_nil hpend] at hp
        cases hp
        exact consumes_refl s
      · obtain ⟨t1, _⟩ := take_cons hpend
        rw [hp] at t1
        cases t1
    · by_cases hf : f c = true
      · refine ⟨[c], ?_⟩
        simp only [take_until_go, hp, hf, if_true]
        exact take_consumes hp
      · obtain ⟨ds, hds⟩ := ih s1
        refine ⟨[c] ++ ds, ?_⟩
        simp only [take_until_go, hp, Bool.not_eq_true _ ▸ hf, if_false]
        exact consumes_trans (take_consumes hp) hds

/-- `take_while` consumes some run of characters. -/
theorem take_while_consumes (f : Char → Bool) (s : Scan) :
    ∃ cs, Consumes s (s.take_while f) cs :=
  take_while_go_consumes f (s.remaining + 1) s

/-- `take_until` consumes some run of characters. -/
theorem take_until_consumes (f : Char → Bool) (s : Scan) :
    ∃ cs, Consumes s (s.take_until f) cs :=
  take_until_go_consumes f (s.remaining + 1) s

/-- The string-body loop consumes some run of characters. -/
theorem string_go_consumes :
    ∀ (fuel : Nat) (s : Scan) (acc : String),
      ∃ cs, Consumes s (string_go fuel s acc).2 cs := by
  intro fuel
  induction fuel with
  | zero => exact fun s acc => ⟨[], consumes_refl s⟩
  | succ fuel ih =>
    intro s acc
    rcases hp : s.take_if (fun c => c != '"') with ⟨oc, s1⟩
    rcases oc with _ | c
    · refine ⟨[], ?_⟩
      simp only [string_go, hp]
      exact Consumes.of_obsEq (by
        obtain ⟨_, t2⟩ : (s.take_if (fun c => c != '"')).1 = none ∧
            ObsEq s (s.take_if (fun c => c != '"')).2 := by
          rcases hpend : s.pending with _ | ⟨a, rest⟩
          · exact take_if_nil hpend
          · by_cases hf : (a != '"') = true
            · obtain ⟨t1, _⟩ := take_if_pos (f := fun c => c != '"') hpend hf
              rw [hp] at t1
              cases t1
            · exact take_if_neg (f := fun c => c != '"') hpend
                (Bool.not_eq_true _ ▸ hf)
        rw [hp] at t2
        exact t2)
    · obtain ⟨ds, hds⟩ := ih s1 (acc.push c)
      refine ⟨[c] ++ ds, ?_⟩
      simp only [string_go, hp]
      exact consumes_trans (take_if_consumes_some hp) hds

/-- Every `peek2` changes no observable. -/
theorem peek2_obs (s : Scan) : ObsEq s (s.peek2).2 := by
  rcases hpend : s.pending with _ | ⟨a, rest⟩
  · exact (peek2_short (s := s) (by rw [hpend]; simp)).2
  · rcases rest with _ | ⟨b, rest2⟩
    · exact (peek2_short (s := s) (by rw [hpend]; simp)).2
    · exact (peek2_cons2 (s := s) hpend).2

/-- `number` consumes some run of characters. -/
theorem number_consumes (s : Scan) : ∃ cs, Consumes s (number s).2 cs := by
  obtain ⟨cs1, h1⟩ := take_while_consumes (fun c => c.isDigit) s
  rcases hp2 : (s.take_while fun c => c.isDigit).peek2 with ⟨oc, s2⟩
  have hobs2 : ObsEq (s.take_while fun c => c.isDigit) s2 := by
    have := peek2_obs (s.take_while fun c => c.isDigit)
    rw [hp2] at this
    exact this
  have hc2 : Consumes s s2 cs1 := by
    have := consumes_trans h1 (Consumes.of_obsEq hobs2)
    simpa using this
  rcases oc with _ | ⟨c1, c2⟩
  · refine ⟨cs1, ?_⟩
    simp only [number, hp2]
    exact hc2
  · by_cases hcc : c1 = '.' ∧ c2.isDigit = true
    · rcases hte : s2.take_exactly '.' with ⟨b, s3⟩
      have h3 : Consumes s2 s3 (if b then ['.'] else []) := take_exactly_consumes hte
      obtain ⟨cs4, h4⟩ := take_while_consumes (fun c => c.isDigit) s3
      refine ⟨cs1 ++ ((if b then ['.'] else []) ++ cs4), ?_⟩
      simp only [number, hp2, if_pos hcc, hte]
      exact consumes_trans hc2 (consumes_trans h3 h4)
    · refine ⟨cs1, ?_⟩
      simp only [number, hp2, if_neg hcc]
      exact hc2

/-- `word` consumes some run of characters. -/
theorem word_consumes (s : Scan) : ∃ cs, Consumes s (word s).2 cs := by
  unfold word
  exact take_while_consumes _ s

/-- Exact behaviour of the `take_while` loop on a pending stream that splits into a
run `xs` satisfying the predicate followed by a remainder whose head fails it: the
loop consumes exactly `xs`. Lines advance by the newlines in `xs`; when `xs` has no
newline and no tab, the column advances by exactly its length. -/
theorem take_while_go_spec (f : Char → Bool) :
    ∀ (xs : List Char) (rest : List Char) (fuel : Nat) (s : Scan),
      s.pending = xs ++ rest →
      (∀ c ∈ xs, f c = true) →
      (∀ c, rest.head? = some c → f c = false) →
      xs.length < fuel →
      (take_while_go f fuel s).pending = rest ∧
      (take_while_go f fuel s).current_token.data = s.current_token.data ++ xs ∧
      (take_while_go f fuel s).token_start_line = s.token_start_line ∧
      (take_while_go f fuel s).token_start_column = s.token_start_column ∧
      (take_while_go f fuel s).line_number = s.line_number + xs.count '\n' ∧
      ((∀ c ∈ xs, c ≠ '\n' ∧ c ≠ '\t') →
        (take_while_go f fuel s).column = s.column + xs.length) := by
  intro xs
  induction xs with
  | nil =>
    intro rest fuel s hp hxs hrest hfuel
    rcases fuel with _ | fuel
    · omega
    · have hdone : (s.take_if f).1 = none ∧ ObsEq s (s.take_if f).2 := by
        rcases hrestc : rest with _ | ⟨r, rest2⟩
        · rw [hrestc] at hp
          exact take_if_nil (by simpa using hp)
        · rw [hrestc] at hp
          exact take_if_neg (by simpa using hp) (hrest r (by rw [hrestc]; rfl))
      obtain ⟨h1, h2⟩ := hdone
      rcases hti : s.take_if f with ⟨oc, s1⟩
      rw [hti] at h1 h2
      subst h1
      simp only [take_while_go, hti]
      refine ⟨by rw [h2.pending]; simpa using hp, by rw [h2.current]; simp,
        h2.tsl, h2.tsc, by rw [h2.line]; simp, fun _ => by rw [h2.column]; simp⟩
  | cons x xs ih =>
    intro rest fuel s hp hxs hrest hfuel
    rcases fuel with _ | fuel
    · simp at hfuel
    · have hfx : f x = true := hxs x (by simp)
      obtain ⟨t1, t2, t3, t4, t5, t6, t7⟩ :=
        take_if_pos (f := f) (by simpa using hp) hfx
      rcases hti : s.take_if f with ⟨oc, s1⟩
      rw [hti] at t1 t2 t3 t4 t5 t6 t7
      subst t1
      simp only [take_while_go, hti]
      obtain ⟨g1, g2, g3, g4, g5, g6⟩ :=
        ih rest fuel s1 (by rw [t2]) (fun c hc => hxs c (by simp [hc]))
          hrest (by simpa using hfuel)
      refine ⟨g1, ?_, g3.trans t6, g4.trans t7, ?_, ?_⟩
      · rw [g2, t3, String.data_push, List.append_assoc]
        rfl
      · rw [g5, t4, nextLine]
        by_cases hx : x = '\n' <;> simp [hx, List.count_cons] <;> omega
      · intro hnotab
        have hx := hnotab x (by simp)
        rw [g6 (fun c hc => hnotab c (by simp [hc])), t5, nextColumn,
          if_neg hx.1, if_neg hx.2]
        simp
        omega

/-- `take_while` consumes exactly the maximal run of characters satisfying the
predicate at the head of the pending stream. -/
theorem take_while_spec (f : Char → Bool) {xs rest : List Char} (s : Scan)
    (hp : s.pending = xs ++ rest)
    (hxs : ∀ c ∈ xs, f c = true)
    (hrest : ∀ c, rest.head? = some c → f c = false) :
    (s.take_while f).pending = rest ∧
    (s.take_while f).current_token.data = s.current_token.data ++ xs ∧
    (s.take_while f).token_start_line = s.token_start_line ∧
    (s.take_while f).token_start_column = s.token_start_column ∧
    (s.take_while f).line_number = s.line_number + xs.count '\n' ∧
    ((∀ c ∈ xs, c ≠ '\n' ∧ c ≠ '\t') →
      (s.take_while f).column = s.column + xs.length) := by
  have hlen : xs.length < s.remaining + 1 := by
    have : s.pending.length = xs.length + rest.length := by rw [hp]; simp
    simp only [Scan.remaining]
    omega
  exact take_while_go_spec f xs rest (s.remaining + 1) s hp hxs hrest hlen

/-- Exact behaviour of the `take_until` loop: it consumes characters up to and
including the first one satisfying the predicate (or everything, if none does),
leaving the tail after that terminator pending. -/
theorem take_until_go_spec (f : Char → Bool) :
    ∀ (fuel : Nat) (s : Scan),
      (s.pending.takeWhile (fun c => !(f c))).length < fuel →
      (take_until_go f fuel s).pending =
        (s.pending.dropWhile (fun c => !(f c))).tail ∧
      (take_until_go f fuel s).token_start_line = s.token_start_line ∧
      (take_until_go f fuel s).token_start_column = s.token_start_column := by
  intro fuel
  induction fuel with
  | zero => intro s h; omega
  | succ fuel ih =>
    intro s hfuel
    rcases hpend : s.pending with _ | ⟨c, rest⟩
    · simp only [take_until_go, take_nil hpend, hpend]
      simp
    · obtain ⟨t1, t2, t3, t4, t5, t6, t7⟩ := take_cons hpend
      rcases ht : s.take with ⟨oc, s1⟩
      rw [ht] at t1 t2 t3 t4 t5 t6 t7
      subst t1
      have t2' : s1.pending = rest := t2
      have t6' : s1.token_start_line = s.token_start_line := t6
      have t7' : s1.token_start_column = s.token_start_column := t7
      rw [hpend] at hfuel
      by_cases hf : f c = true
      · simp only [take_until_go, ht, hf, if_true, hpend, List.dropWhile_cons]
        simp only [hf, Bool.not_true, Bool.false_eq_true, if_false, List.tail_cons]
        exact ⟨t2', t6', t7'⟩
      · have hf2 : f c = false := Bool.not_eq_true _ ▸ hf
        simp only [take_until_go, ht, hf2, Bool.false_eq_true, if_false, hpend,
          List.dropWhile_cons]
        have hlen : (s1.pending.takeWhile (fun c => !(f c))).length < fuel := by
          rw [t2']
          rw [List.takeWhile_cons] at hfuel
          simp [hf2] at hfuel
          omega
        obtain ⟨g1, g2, g3⟩ := ih s1 hlen
        simp only [hf2, Bool.not_false, if_true, List.tail_cons]
        rw [t2'] at g1
        exact ⟨g1, g2.trans t6', g3.trans t7'⟩

/-- The run kept by `takeWhile` is never longer than the list. -/
theorem takeWhile_length_le (p : Char → Bool) (l : List Char) :
    (l.takeWhile p).length ≤ l.length :=
  (List.takeWhile_sublist p).length_le

/-- `take_until` consumes through the first character satisfying the predicate. -/
theorem take_until_spec (f : Char → Bool) (s : Scan) :
    (s.take_until f).pending = (s.pending.dropWhile (fun c => !(f c))).tail ∧
    (s.take_until f).token_start_line = s.token_start_line ∧
    (s.take_until f).token_start_column = s.token_start_column := by
  have hlen : (s.pending.takeWhile (fun c => !(f c))).length < s.remaining + 1 := by
    have := takeWhile_length_le (fun c => !(f c)) s.pending
    simp only [Scan.remaining]
    omega
  exact take_until_go_spec f (s.remaining + 1) s hlen

/-- Exact behaviour of the string-body loop on a pending stream that splits into a
run `xs` of non-quote characters followed by a remainder that is empty or starts
with a quote: the loop moves exactly `xs` into both the literal accumulator and the
token accumulator. -/
theorem string_go_spec :
    ∀ (xs rest : List Char) (fuel : Nat) (s : Scan) (acc : String),
      s.pending = xs ++ rest →
      (∀ c ∈ xs, c ≠ '"') →
      (∀ c, rest.head? = some c → c = '"') →
      xs.length < fuel →
      (string_go fuel s acc).1.data = acc.data ++ xs ∧
      (string_go fuel s acc).2.pending = rest ∧
      (string_go fuel s acc).2.current_token.data = s.current_token.data ++ xs ∧
      (string_go fuel s acc).2.token_start_line = s.token_start_line ∧
      (string_go fuel s acc).2.token_start_column = s.token_start_column := by
  intro xs
  induction xs with
  | nil =>
    intro rest fuel s acc hp hxs hrest hfuel
    rcases fuel with _ | fuel
    · omega
    · have hdone : (s.take_if (fun c => c != '"')).1 = none ∧
          ObsEq s (s.take_if (fun c => c != '"')).2 := by
        rcases hrestc : rest with _ | ⟨r, rest2⟩
        · rw [hrestc] at hp
          exact take_if_nil (by simpa using hp)
        · rw [hrestc] at hp
          refine take_if_neg (by simpa using hp) ?_
          have : r = '"' := hrest r (by rw [hrestc]; rfl)
          simp [this]
      obtain ⟨h1, h2⟩ := hdone
      rcases hti : s.take_if (fun c => c != '"') with ⟨oc, s1⟩
      rw [hti] at h1 h2
      subst h1
      simp only [string_go, hti]
      exact ⟨by simp, by rw [h2.pending]; simpa using hp,
        by rw [h2.current]; simp, h2.tsl, h2.tsc⟩
  | cons x xs ih =>
    intro rest fuel s acc hp hxs hrest hfuel
    rcases fuel with _ | fuel
    · simp at hfuel
    · have hfx : (x != '"') = true := by
        simp [hxs x (by simp)]
      obtain ⟨t1, t2, t3, t4, t5, t6, t7⟩ :=
        take_if_pos (f := fun c => c != '"') (by simpa using hp) hfx
      rcases hti : s.take_if (fun c => c != '"') with ⟨oc, s1⟩
      rw [hti] at t1 t2 t3 t4 t5 t6 t7
      subst t1
      simp only [string_go, hti]
      obtain ⟨g0, g1, g2, g3, g4⟩ :=
        ih rest fuel s1 (acc.push x) (by rw [t2]) (fun c hc => hxs c (by simp [hc]))
          hrest (by simpa using hfuel)
      refine ⟨?_, g1, ?_, g3.trans t6, g4.trans t7⟩
      · rw [g0, String.data_push, List.append_assoc]
        rfl
      · rw [g2, t3, String.data_push, List.append_assoc]
        rfl

/-- Decimal digits are neither newlines nor tabs. -/
theorem digit_not_special {c : Char} (h : c.isDigit = true) : c ≠ '\n' ∧ c ≠ '\t' := by
  constructor <;> rintro rfl <;> exact absurd h (by decide)

/-- Identifier characters (ASCII alphanumerics and underscore) are neither newlines
nor tabs. -/
theorem wordchar_not_special {c : Char} (h : (c.isAlphanum || c == '_') = true) :
    c ≠ '\n' ∧ c ≠ '\t' := by
  constructor <;> rintro rfl <;> exact absurd h (by decide)

/-- The head of the remainder after `dropWhile` fails the predicate. -/
theorem dropWhile_head_false {f : Char → Bool} :
    ∀ {l : List Char} {c : Char}, (l.dropWhile f).head? = some c → f c = false := by
  intro l
  induction l with
  | nil => intro c h; cases h
  | cons a l ih =>
    intro c h
    rw [List.dropWhile_cons] at h
    by_cases hf : f a = true
    · rw [if_pos hf] at h
      exact ih h
    · have hf2 : f a = false := Bool.not_eq_true _ ▸ hf
      rw [if_neg hf] at h
      cases h
      exact hf2

/-- Splitting a list at a run satisfying the predicate followed by a failing head
computes its takeWhile and dropWhile. -/
theorem takeWhile_all_append {f : Char → Bool} :
    ∀ {xs rest : List Char}, (∀ c ∈ xs, f c = true) →
      (∀ c, rest.head? = some c → f c = false) →
      (xs ++ rest).takeWhile f = xs ∧ (xs ++ rest).dropWhile f = rest := by
  intro xs
  induction xs with
  | nil =>
    intro rest hxs hrest
    rcases rest with _ | ⟨r, rest2⟩
    · simp
    · have := hrest r rfl
      simp [List.takeWhile_cons, List.dropWhile_cons, this]
  | cons x xs ih =>
    intro rest hxs hrest
    have hx : f x = true := hxs x (by simp)
    obtain ⟨h1, h2⟩ := ih (fun c hc => hxs c (by simp [hc])) hrest
    simp [List.takeWhile_cons, List.dropWhile_cons, hx, h1, h2]

/-- `number` when the two-character lookahead does not show a dot followed by a digit:
it consumes exactly the maximal run of digits, appends it to the token accumulator,
advances the column by its length, and carries the accumulated text in the token. -/
theorem number_spec_nofrac (s : Scan)
    (hnof : ∀ d r, s.pending.dropWhile Char.isDigit = '.' :: d :: r → d.isDigit = false) :
    (number s).1 = Tok.Number ⟨s.current_token.data ++ s.pending.takeWhile Char.isDigit⟩ ∧
    (number s).2.pending = s.pending.dropWhile Char.isDigit ∧
    (number s).2.current_token.data =
      s.current_token.data ++ s.pending.takeWhile Char.isDigit ∧
    (number s).2.token_start_line = s.token_start_line ∧
    (number s).2.token_start_column = s.token_start_column ∧
    (number s).2.column = s.column + (s.pending.takeWhile Char.isDigit).length ∧
    (number s).2.line_number = s.line_number := by
  have hsplit : s.pending = s.pending.takeWhile Char.isDigit ++
      s.pending.dropWhile Char.isDigit :=
    (List.takeWhile_append_dropWhile Char.isDigit s.pending).symm
  obtain ⟨w1, w2, w3, w4, w5, w6⟩ := take_while_spec (fun c => c.isDigit) s hsplit
    (fun c hc => List.mem_takeWhile_imp hc) (fun c hc => dropWhile_head_false hc)
  have hcol : (s.take_while fun c => c.isDigit).column =
      s.column + (s.pending.takeWhile Char.isDigit).length :=
    w6 (fun c hc => digit_not_special (List.mem_takeWhile_imp hc))
  have hline : (s.take_while fun c => c.isDigit).line_number = s.line_number := by
    rw [w5]
    have : (s.pending.takeWhile Char.isDigit).count '\n' = 0 := by
      rw [List.count_eq_zero]
      intro hmem
      exact absurd (List.mem_takeWhile_imp hmem) (by decide)
    omega
  rcases hp2 : (s.take_while fun c => c.isDigit).peek2 with ⟨oc, s2⟩
  have hobs2 : ObsEq (s.take_while fun c => c.isDigit) s2 := by
    have := peek2_obs (s.take_while fun c => c.isDigit)
    rw [hp2] at this
    exact this
  have hfin : s2.current_token.data =
      s.current_token.data ++ s.pending.takeWhile Char.isDigit := by
    rw [hobs2.current, w2]
  have hfin2 : s2.pending = s.pending.dropWhile Char.isDigit := by
    rw [hobs2.pending, w1]
  have hfin3 : s2.token_start_line = s.token_start_line := hobs2.tsl.trans w3
  have hfin4 : s2.token_start_column = s.token_start_column := hobs2.tsc.trans w4
  have hfin5 : s2.column = s.column + (s.pending.takeWhile Char.isDigit).length :=
    hobs2.column.trans hcol
  have hfin6 : s2.line_number = s.line_number := hobs2.line.trans hline
  have hcur : s2.current_token = ⟨s.current_token.data ++
      s.pending.takeWhile Char.isDigit⟩ := by
    apply String.ext
    exact hfin
  rcases oc with _ | ⟨c1, c2⟩
  · simp only [number, hp2]
    exact ⟨by rw [hcur], hfin2, hfin, hfin3, hfin4, hfin5, hfin6⟩
  · have hfst : ((s.take_while fun c => c.isDigit).peek2).1 = some (c1, c2) := by
      rw [hp2]
    have hne : ¬(c1 = '.' ∧ c2.isDigit = true) := by
      rintro ⟨rfl, hdig⟩
      rcases hpend2 : (s.take_while fun c => c.isDigit).pending with _ | ⟨a, rest⟩
      · obtain ⟨q1, _⟩ := peek2_short (s := (s.take_while fun c => c.isDigit))
          (by rw [hpend2]; simp)
        rw [hfst] at q1
        cases q1
      · rcases rest with _ | ⟨b, rest2⟩
        · obtain ⟨q1, _⟩ := peek2_short (s := (s.take_while fun c => c.isDigit))
            (by rw [hpend2]; simp)
          rw [hfst] at q1
          cases q1
        · obtain ⟨q1, _⟩ := peek2_cons2 (s := (s.take_while fun c => c.isDigit)) hpend2
          rw [hfst] at q1
          have hab : a = '.' ∧ b = c2 := by
            have := q1
            simp at this
            exact ⟨this.1.symm, this.2.symm⟩
          obtain ⟨rfl, rfl⟩ := hab
          rw [w1] at hpend2
          exact absurd hdig (by rw [hnof b rest2 hpend2]; simp)
    simp only [number, hp2, if_neg hne]
    exact ⟨by rw [hcur], hfin2, hfin, hfin3, hfin4, hfin5, hfin6⟩

/-- `number` when the two-character lookahead shows a dot followed by a digit: it
consumes the leading digit run, the dot, and a further non-empty digit run, and
carries the whole accumulated text in the token. -/
theorem number_spec_frac (s : Scan) {d : Char} {r : List Char}
    (hfrac : s.pending.dropWhile Char.isDigit = '.' :: d :: r)
    (hd : d.isDigit = true) :
    (number s).1 = Tok.Number ⟨s.current_token.data ++ s.pending.takeWhile Char.isDigit ++
      '.' :: (d :: r).takeWhile Char.isDigit⟩ ∧
    (number s).2.current_token.data =
      s.current_token.data ++ s.pending.takeWhile Char.isDigit ++
        '.' :: (d :: r).takeWhile Char.isDigit ∧
    (number s).2.pending = (d :: r).dropWhile Char.isDigit ∧
    (number s).2.token_start_line = s.token_start_line ∧
    (number s).2.token_start_column = s.token_start_column := by
  have hsplit : s.pending = s.pending.takeWhile Char.isDigit ++
      s.pending.dropWhile Char.isDigit :=
    (List.takeWhile_append_dropWhile Char.isDigit s.pending).symm
  obtain ⟨w1, w2, w3, w4, w5, w6⟩ := take_while_spec (fun c => c.isDigit) s hsplit
    (fun c hc => List.mem_takeWhile_imp hc) (fun c hc => dropWhile_head_false hc)
  rw [hfrac] at w1
  have hp2c : (s.take_while fun c => c.isDigit).pending = '.' :: d :: r := w1
  obtain ⟨q1, q2⟩ := peek2_cons2 (s := (s.take_while fun c => c.isDigit)) hp2c
  rcases hp2 : (s.take_while fun c => c.isDigit).peek2 with ⟨oc, s2⟩
  rw [hp2] at q1 q2
  subst q1
  have hcond : ('.' : Char) = '.' ∧ d.isDigit = true := ⟨Eq.refl _, hd⟩
  have hs2p : s2.pending = '.' :: d :: r := by rw [q2.pending, hp2c]
  obtain ⟨e1, e2, e3, e4, e5, e6, e7⟩ := take_exactly_pos (c := '.') hs2p
  rcases hte : s2.take_exactly '.' with ⟨b, s3⟩
  rw [hte] at e1 e2 e3 e4 e5 e6 e7
  have hsplit2 : s3.pending = (d :: r).takeWhile Char.isDigit ++
      (d :: r).dropWhile Char.isDigit := by
    rw [e2, (List.takeWhile_append_dropWhile Char.isDigit (d :: r))]
  obtain ⟨v1, v2, v3, v4, v5, v6⟩ := take_while_spec (fun c => c.isDigit) s3 hsplit2
    (fun c hc => List.mem_takeWhile_imp hc) (fun c hc => dropWhile_head_false hc)
  have hdata : (s3.take_while fun c => c.isDigit).current_token.data =
      s.current_token.data ++ s.pending.takeWhile Char.isDigit ++
        '.' :: (d :: r).takeWhile Char.isDigit := by
    rw [v2, e3, String.data_push, q2.current, w2]
    simp
  have hcur : (s3.take_while fun c => c.isDigit).current_token =
      ⟨s.current_token.data ++ s.pending.takeWhile Char.isDigit ++
        '.' :: (d :: r).takeWhile Char.isDigit⟩ := String.ext hdata
  simp only [number, hp2, hte]
  split
  · refine ⟨by rw [hcur], hdata, v1, ?_, ?_⟩
    · rw [v3, e6, q2.tsl, w3]
    · rw [v4, e7, q2.tsc, w4]
  · next hcondx => exact absurd ⟨trivial, hd⟩ hcondx

/-- `word` consumes exactly the maximal run of identifier characters (ASCII
alphanumerics and underscores) and classifies the accumulated text through the
keyword table. -/
theorem word_spec (s : Scan) :
    (word s).1 = word_tok ⟨s.current_token.data ++
      s.pending.takeWhile (fun c => c.isAlphanum || c == '_')⟩ ∧
    (word s).2.pending = s.pending.dropWhile (fun c => c.isAlphanum || c == '_') ∧
    (word s).2.current_token.data = s.current_token.data ++
      s.pending.takeWhile (fun c => c.isAlphanum || c == '_') ∧
    (word s).2.token_start_line = s.token_start_line ∧
    (word s).2.token_start_column = s.token_start_column ∧
    (word s).2.column = s.column +
      (s.pending.takeWhile (fun c => c.isAlphanum || c == '_')).length ∧
    (word s).2.line_number = s.line_number := by
  have hsplit : s.pending = s.pending.takeWhile (fun c => c.isAlphanum || c == '_') ++
      s.pending.dropWhile (fun c => c.isAlphanum || c == '_') :=
    (List.takeWhile_append_dropWhile (fun c => c.isAlphanum || c == '_') s.pending).symm
  obtain ⟨w1, w2, w3, w4, w5, w6⟩ :=
    take_while_spec (fun c => c.isAlphanum || c == '_') s hsplit
      (fun c hc => List.mem_takeWhile_imp
        (p := fun c => c.isAlphanum || c == '_') hc)
      (fun c hc => dropWhile_head_false hc)
  have hcol := w6 (fun c hc =>
    wordchar_not_special (List.mem_takeWhile_imp
      (p := fun c => c.isAlphanum || c == '_') hc))
  have hline : (s.take_while fun c => c.isAlphanum || c == '_').line_number
      = s.line_number := by
    rw [w5]
    have : (s.pending.takeWhile (fun c => c.isAlphanum || c == '_')).count '\n' = 0 := by
      rw [List.count_eq_zero]
      intro hmem
      exact absurd (List.mem_takeWhile_imp hmem) (by decide)
    omega
  have hcur : (s.take_while fun c => c.isAlphanum || c == '_').current_token =
      ⟨s.current_token.data ++
        s.pending.takeWhile (fun c => c.isAlphanum || c == '_')⟩ := String.ext w2
  rw [show word s = (word_tok
      (s.take_while fun c => c.isAlphanum || c == '_').current_token,
      s.take_while fun c => c.isAlphanum || c == '_') from rfl]
  exact ⟨by rw [hcur], w1, w2, w3, w4, hcol, hline⟩

/-- When no closing quote remains pending, `string` consumes everything and returns an
`UnterminatedString` error carrying the place recorded at the start mark; no token is
produced for the unit. -/
theorem string_spec_unterminated (s : Scan) (h : '"' ∉ s.pending) :
    (string s).1 = Except.error
      { place := ⟨s.token_start_line, s.token_start_column⟩,
        kind := ErrorKind.UnterminatedString } ∧
    (string s).2.pending = [] := by
  have hfuel : s.pending.length < s.remaining + 1 := by
    simp only [Scan.remaining]
    omega
  obtain ⟨g0, g1, g2, g3, g4⟩ := string_go_spec s.pending [] (s.remaining + 1) s ""
    (by simp) (fun c hc => by rintro rfl; exact h hc) (fun c hc => by cases hc) hfuel
  rcases hsg : string_go (s.remaining + 1) s "" with ⟨acc1, s1⟩
  rw [hsg] at g0 g1 g2 g3 g4
  obtain ⟨e1, e2⟩ := take_exactly_nil (c := '"') (s := s1) g1
  rcases hte : s1.take_exactly '"' with ⟨b, s2⟩
  rw [hte] at e1 e2
  subst e1
  simp only [string, hsg, hte]
  refine ⟨?_, by rw [e2.pending, g1]⟩
  simp only [Scan.token_start]
  rw [e2.tsl, e2.tsc, g3, g4]

/-- When `string` succeeds, the produced token carries the scanner's accumulated
lexeme, a `String` kind, and the place recorded at the start mark; the call as a
whole consumed some run of characters. -/
theorem string_spec_ok {s s1 : Scan} {t : Token}
    (h : string s = (Except.ok t, s1)) :
    t.lexeme = s1.current_token ∧
    t.place = ⟨s.token_start_line, s.token_start_column⟩ ∧
    (∃ str, t.tok = Tok.String str) ∧
    ∃ cs, Consumes s s1 cs := by
  obtain ⟨cs1, hc1⟩ := string_go_consumes (s.remaining + 1) s ""
  rcases hsg : string_go (s.remaining + 1) s "" with ⟨acc1, s2⟩
  rw [hsg] at hc1
  rcases hte : s2.take_exactly '"' with ⟨b, s3⟩
  have hc2 : Consumes s2 s3 (if b then ['"'] else []) := take_exactly_consumes hte
  simp only [string, hsg, hte] at h
  rcases b with _ | _
  · cases h
  · simp only at h
    have ht : t = ⟨Tok.String acc1, s3.token_start, s3.current_token⟩ ∧ s1 = s3 := by
      have h1 := congrArg Prod.fst h
      have h2 := congrArg Prod.snd h
      simp at h1 h2
      exact ⟨h1.symm, h2.symm⟩
    obtain ⟨ht1, ht2⟩ := ht
    rw [ht1, ht2]
    have hall : Consumes s s3 (cs1 ++ ['"']) := consumes_trans hc1 (by simpa using hc2)
    refine ⟨Eq.refl _, ?_, ⟨acc1, Eq.refl _⟩, ⟨cs1 ++ ['"'], hall⟩⟩
    show s3.token_start = ⟨s.token_start_line, s.token_start_column⟩
    simp only [Scan.token_start]
    rw [hall.tsl, hall.tsc]

/-- `start_token` clears the accumulator and records the current position, leaving the
pending stream and the position untouched. -/
theorem start_token_obs (s : Scan) :
    (s.start_token).pending = s.pending ∧
    (s.start_token).current_token = "" ∧
    (s.start_token).line_number = s.line_number ∧
    (s.start_token).column = s.column ∧
    (s.start_token).token_start_line = s.line_number ∧
    (s.start_token).token_start_column = s.column :=
  ⟨Eq.refl _, Eq.refl _, Eq.refl _, Eq.refl _, Eq.refl _, Eq.refl _⟩

/-- A digit differs from any character that is not a digit. -/
theorem ne_of_isDigit {d c : Char} (hd : d.isDigit = true) (hc : c.isDigit = false) :
    d ≠ c := by
  rintro rfl
  rw [hd] at hc
  cases hc

/-- One lexer iteration beginning at a digit, when the pending stream after the leading
digit run does not continue with a dot followed by a digit: the iteration emits a
`Number` token holding exactly the maximal digit run (no dot is absorbed), placed at
the position where the digit run began, and consumes exactly that run. -/
theorem step_digit_nofrac {s : Scan} {d : Char} {rest : List Char}
    (hpend : s.pending = d :: rest) (hd : d.isDigit = true)
    (hnof : ∀ d2 r2, rest.dropWhile Char.isDigit = '.' :: d2 :: r2 →
      d2.isDigit = false) :
    (lex_step s).1 = some (Except.ok
      ⟨Tok.Number ⟨d :: rest.takeWhile Char.isDigit⟩,
       ⟨s.line_number, s.column⟩,
       ⟨d :: rest.takeWhile Char.isDigit⟩⟩) ∧
    (lex_step s).2.pending = rest.dropWhile Char.isDigit ∧
    (lex_step s).2.column = s.column + 1 + (rest.takeWhile Char.isDigit).length ∧
    (lex_step s).2.line_number = s.line_number := by
  obtain ⟨p1, p2, p3, p4, p5, p6⟩ := start_token_obs s
  have hp0 : (s.start_token).pending = d :: rest := by rw [p1, hpend]
  obtain ⟨t1, t2, t3, t4, t5, t6, t7⟩ := take_cons hp0
  rcases ht : (s.start_token).take with ⟨oc, s1⟩
  rw [ht] at t1 t2 t3 t4 t5 t6 t7
  subst t1
  have hnn : d ≠ '\n' := ne_of_isDigit hd (by decide)
  have hnt : d ≠ '\t' := ne_of_isDigit hd (by decide)
  have hline1 : s1.line_number = s.line_number := by
    rw [t4, nextLine, if_neg hnn, p3]
  have hcol1 : s1.column = s.column + 1 := by
    rw [t5, nextColumn, if_neg hnn, if_neg hnt, p4]
  have hcur1 : s1.current_token.data = [d] := by
    rw [t3, p2, String.data_push]
    rfl
  have hnof1 : ∀ d2 r2, s1.pending.dropWhile Char.isDigit = '.' :: d2 :: r2 →
      d2.isDigit = false := by
    rw [t2]
    exact hnof
  obtain ⟨n1, n2, n3, n4, n5, n6, n7⟩ := number_spec_nofrac s1 hnof1
  rcases hn : number s1 with ⟨tok, s2⟩
  rw [hn] at n1 n2 n3 n4 n5 n6 n7
  have htw : s1.pending.takeWhile Char.isDigit = rest.takeWhile Char.isDigit := by
    rw [t2]
  have hdw : s1.pending.dropWhile Char.isDigit = rest.dropWhile Char.isDigit := by
    rw [t2]
  have n1' : tok = Tok.Number ⟨s1.current_token.data ++
      s1.pending.takeWhile Char.isDigit⟩ := n1
  have n2' : s2.pending = s1.pending.dropWhile Char.isDigit := n2
  have n3' : s2.current_token.data = s1.current_token.data ++
      s1.pending.takeWhile Char.isDigit := n3
  have n4' : s2.token_start_line = s1.token_start_line := n4
  have n5' : s2.token_start_column = s1.token_start_column := n5
  have n6' : s2.column = s1.column + (s1.pending.takeWhile Char.isDigit).length := n6
  have n7' : s2.line_number = s1.line_number := n7
  have t6' : s1.token_start_line = s.start_token.token_start_line := t6
  have t7' : s1.token_start_column = s.start_token.token_start_column := t7
  simp only [lex_step, ht, lex_arms]
  rw [if_neg (by
      rintro hor
      rcases hor with h | h | h | h <;> exact ne_of_isDigit hd (by decide) h),
    if_neg (ne_of_isDigit hd (by decide)), if_neg (ne_of_isDigit hd (by decide)),
    if_neg (ne_of_isDigit hd (by decide)), if_neg (ne_of_isDigit hd (by decide)),
    if_neg (ne_of_isDigit hd (by decide)), if_neg (ne_of_isDigit hd (by decide)),
    if_neg (ne_of_isDigit hd (by decide)), if_neg (ne_of_isDigit hd (by decide)),
    if_neg (ne_of_isDigit hd (by decide)), if_pos hd]
  simp only [hn]
  refine ⟨?_, ?_, ?_, ?_⟩
  · have htok : tok = Tok.Number ⟨d :: rest.takeWhile Char.isDigit⟩ := by
      rw [n1', hcur1, htw]
      rfl
    have hlex : s2.current_token = ⟨d :: rest.takeWhile Char.isDigit⟩ := by
      apply String.ext
      rw [n3', hcur1, htw]
      rfl
    have hplace : s2.token_start = ⟨s.line_number, s.column⟩ := by
      simp only [Scan.token_start]
      rw [n4', n5', t6', t7', p5, p6]
    simp only [mkToken, htok, hplace, hlex]
  · rw [n2', hdw]
  · rw [n6', hcol1, htw]
  · rw [n7', hline1]

/-- One lexer iteration beginning at a dot: emits a `Dot` token at the current
position and consumes exactly that character. -/
theorem step_dot {s : Scan} {rest : List Char} (hpend : s.pending = '.' :: rest) :
    (lex_step s).1 = some (Except.ok
      ⟨Tok.Dot, ⟨s.line_number, s.column⟩, "."⟩) ∧
    (lex_step s).2.pending = rest ∧
    (lex_step s).2.column = s.column + 1 ∧
    (lex_step s).2.line_number = s.line_number := by
  obtain ⟨p1, p2, p3, p4, p5, p6⟩ := start_token_obs s
  have hp0 : (s.start_token).pending = '.' :: rest := by rw [p1, hpend]
  obtain ⟨t1, t2, t3, t4, t5, t6, t7⟩ := take_cons hp0
  rcases ht : (s.start_token).take with ⟨oc, s1⟩
  rw [ht] at t1 t2 t3 t4 t5 t6 t7
  subst t1
  have t2' : s1.pending = rest := t2
  have t3' : s1.current_token = (s.start_token).current_token.push '.' := t3
  have t4' : s1.line_number = nextLine '.' (s.start_token).line_number := t4
  have t5' : s1.column = nextColumn '.' (s.start_token).column := t5
  have t6' : s1.token_start_line = (s.start_token).token_start_line := t6
  have t7' : s1.token_start_column = (s.start_token).token_start_column := t7
  have hlex : s1.current_token = "." := by
    apply String.ext
    rw [t3', p2, String.data_push]
    rfl
  have hplace : s1.token_start = ⟨s.line_number, s.column⟩ := by
    simp only [Scan.token_start]
    rw [t6', t7', p5, p6]
  have hstep : lex_step s =
      (some (Except.ok ⟨Tok.Dot, ⟨s.line_number, s.column⟩, "."⟩), s1) := by
    simp only [lex_step, ht, lex_arms]
    simp [mkToken, hplace, hlex]
  rw [hstep]
  refine ⟨Eq.refl _, t2', ?_, ?_⟩
  · rw [show (some (Except.ok (⟨Tok.Dot, ⟨s.line_number, s.column⟩, "."⟩ : Token)),
      s1).2.column = s1.column from Eq.refl _]
    rw [t5', nextColumn, if_neg (by decide), if_neg (by decide), p4]
  · rw [show (some (Except.ok (⟨Tok.Dot, ⟨s.line_number, s.column⟩, "."⟩ : Token)),
      s1).2.line_number = s1.line_number from Eq.refl _]
    rw [t4', nextLine, if_neg (by decide), p3]

/-- The characters reachable by some arm of the `lex` match (src/lex.rs:114-151):
whitespace, the punctuation and operator heads, digits, quote, identifier heads, and
`#`. A character outside this set falls through to the `other` arm. -/
def handledChar (c : Char) : Bool :=
  c == '\n' || c == ' ' || c == '\t' || c == '\r' || c == '+' || c == '*' ||
  c == '-' || c == '.' || c == '/' || c == ';' || c == ',' || c == '!' ||
  c == '=' || c.isDigit || c == '{' || c == '}' || c == '(' || c == ')' ||
  c == '<' || c == '>' || c == '"' || c.isAlpha || c == '_' || c == '#'

/-- One lexer iteration beginning at a character matched by no rule: emits an
`UnexpectedCharacter` error carrying that character and the position where it began,
consumes exactly that one character, and leaves the scan ready to continue. -/
theorem step_unrecognized {s : Scan} {c : Char} {rest : List Char}
    (hpend : s.pending = c :: rest) (hc : handledChar c = false) :
    (lex_step s).1 = some (Except.error
      ⟨⟨s.line_number, s.column⟩, ErrorKind.UnexpectedCharacter c⟩) ∧
    (lex_step s).2.pending = rest ∧
    (lex_step s).2.column = s.column + 1 ∧
    (lex_step s).2.line_number = s.line_number := by
  simp only [handledChar, Bool.or_eq_false_iff, beq_eq_false_iff_ne, ne_eq] at hc
  obtain ⟨⟨⟨⟨⟨⟨⟨⟨⟨⟨⟨⟨⟨⟨⟨⟨⟨⟨⟨⟨⟨⟨⟨h1, h2⟩, h3⟩, h4⟩, h5⟩, h6⟩, h7⟩, h8⟩, h9⟩,
    h10⟩, h11⟩, h12⟩, h13⟩, h14⟩, h15⟩, h16⟩, h17⟩, h18⟩, h19⟩, h20⟩, h21⟩,
    h22⟩, h23⟩, h24⟩ := hc
  obtain ⟨p1, p2, p3, p4, p5, p6⟩ := start_token_obs s
  have hp0 : (s.start_token).pending = c :: rest := by rw [p1, hpend]
  obtain ⟨t1, t2, t3, t4, t5, t6, t7⟩ := take_cons hp0
  rcases ht : (s.start_token).take with ⟨oc, s1⟩
  rw [ht] at t1 t2 t3 t4 t5 t6 t7
  subst t1
  have t2' : s1.pending = rest := t2
  have t4' : s1.line_number = nextLine c (s.start_token).line_number := t4
  have t5' : s1.column = nextColumn c (s.start_token).column := t5
  have t6' : s1.token_start_line = (s.start_token).token_start_line := t6
  have t7' : s1.token_start_column = (s.start_token).token_start_column := t7
  simp only [lex_step, ht, lex_arms]
  rw [if_neg (by
      rintro (h | h | h | h) <;>
        first | exact h1 h | exact h2 h | exact h3 h | exact h4 h),
    if_neg h5, if_neg h6, if_neg h7, if_neg h8, if_neg h9, if_neg h10, if_neg h11,
    if_neg h12, if_neg h13, if_neg (by rw [h14]; rintro h; cases h),
    if_neg h15, if_neg h16, if_neg h17, if_neg h18, if_neg h19, if_neg h20,
    if_neg h21,
    if_neg (by
      rintro (h | h)
      · rw [h22] at h
        cases h
      · exact h23 h),
    if_neg h24]
  refine ⟨?_, t2', ?_, ?_⟩
  · have hplace : s1.token_start = ⟨s.line_number, s.column⟩ := by
      simp only [Scan.token_start]
      rw [t6', t7', p5, p6]
    simp only [mkError, hplace]
  · have hcnn : c ≠ '\n' := h1
    have hcnt : c ≠ '\t' := h3
    rw [t5', nextColumn, if_neg hcnn, if_neg hcnt, p4]
  · rw [t4', nextLine, if_neg h1, p3]

/-- One lexer iteration beginning at a double quote with no closing quote pending:
emits exactly one `UnterminatedString` error placed at the opening quote, emits no
token, and consumes the whole remaining input. -/
theorem step_string_unterminated {s : Scan} {rest : List Char}
    (hpend : s.pending = '"' :: rest) (hq : '"' ∉ rest) :
    (lex_step s).1 = some (Except.error
      ⟨⟨s.line_number, s.column⟩, ErrorKind.UnterminatedString⟩) ∧
    (lex_step s).2.pending = [] := by
  obtain ⟨p1, p2, p3, p4, p5, p6⟩ := start_token_obs s
  have hp0 : (s.start_token).pending = '"' :: rest := by rw [p1, hpend]
  obtain ⟨t1, t2, t3, t4, t5, t6, t7⟩ := take_cons hp0
  rcases ht : (s.start_token).take with ⟨oc, s1⟩
  rw [ht] at t1 t2 t3 t4 t5 t6 t7
  subst t1
  have t2' : s1.pending = rest := t2
  have t6' : s1.token_start_line = (s.start_token).token_start_line := t6
  have t7' : s1.token_start_column = (s.start_token).token_start_column := t7
  have hq1 : '"' ∉ s1.pending := by rw [t2']; exact hq
  obtain ⟨u1, u2⟩ := string_spec_unterminated s1 hq1
  rcases hstr : string s1 with ⟨r, s2⟩
  rw [hstr] at u1 u2
  have u1' : r = Except.error ⟨⟨s1.token_start_line, s1.token_start_column⟩,
      ErrorKind.UnterminatedString⟩ := u1
  have u2' : s2.pending = [] := u2
  have hstep : lex_step s = (some r, s2) := by
    simp only [lex_step, ht, lex_arms]
    simp [hstr]
  rw [hstep]
  constructor
  · rw [show (some r, s2).1 = some r from Eq.refl _, u1', t6', t7', p5, p6]
  · exact u2'

/-- One lexer iteration beginning at `#` when the `#` sits at column 1 (of any line)
and is immediately followed by `!`: the shebang branch fires, nothing is emitted, and
the scan discards through the end of the line. -/
theorem step_hash_shebang {s : Scan} {rest : List Char}
    (hpend : s.pending = '#' :: '!' :: rest) (hcol : s.column = 1) :
    (lex_step s).1 = none ∧
    (lex_step s).2.pending = (rest.dropWhile (fun c => !(c == '\n'))).tail := by
  obtain ⟨p1, p2, p3, p4, p5, p6⟩ := start_token_obs s
  have hp0 : (s.start_token).pending = '#' :: '!' :: rest := by rw [p1, hpend]
  obtain ⟨t1, t2, t3, t4, t5, t6, t7⟩ := take_cons hp0
  rcases ht : (s.start_token).take with ⟨oc, s1⟩
  rw [ht] at t1 t2 t3 t4 t5 t6 t7
  subst t1
  have t2' : s1.pending = '!' :: rest := t2
  have hcol1 : s1.column = 2 := by
    have t5' : s1.column = nextColumn '#' (s.start_token).column := t5
    rw [t5', nextColumn, if_neg (by decide), if_neg (by decide), p4, hcol]
  obtain ⟨e1, e2, e3, e4, e5, e6, e7⟩ := take_exactly_pos (c := '!') t2'
  rcases hte : s1.take_exactly '!' with ⟨b, s2⟩
  rw [hte] at e1 e2 e3 e4 e5 e6 e7
  subst e1
  have e2' : s2.pending = rest := e2
  obtain ⟨v1, _, _⟩ := take_until_spec (fun cc => cc == '\n') s2
  have hstep : lex_step s = (none, s2.take_until (fun cc => cc == '\n')) := by
    simp only [lex_step, ht, lex_arms]
    simp [Scan.next_column, hcol1, hte]
  rw [hstep]
  refine ⟨Eq.refl _, ?_⟩
  rw [show (none (α := Except Error Token),
    s2.take_until (fun cc => cc == '\n')).2 = s2.take_until (fun cc => cc == '\n')
    from Eq.refl _]
  rw [v1, e2']

/-- One lexer iteration beginning at `#` at any column other than 1: the shebang guard
fails on the column test, the `#` falls through to the catch-all arm, and exactly one
`UnexpectedCharacter('#')` error is emitted at the place of the `#`. -/
theorem step_hash_not_col1 {s : Scan} {rest : List Char}
    (hpend : s.pending = '#' :: rest) (hcol : s.column ≠ 1) :
    (lex_step s).1 = some (Except.error
      ⟨⟨s.line_number, s.column⟩, ErrorKind.UnexpectedCharacter '#'⟩) ∧
    (lex_step s).2.pending = rest := by
  obtain ⟨p1, p2, p3, p4, p5, p6⟩ := start_token_obs s
  have hp0 : (s.start_token).pending = '#' :: rest := by rw [p1, hpend]
  obtain ⟨t1, t2, t3, t4, t5, t6, t7⟩ := take_cons hp0
  rcases ht : (s.start_token).take with ⟨oc, s1⟩
  rw [ht] at t1 t2 t3 t4 t5 t6 t7
  subst t1
  have t2' : s1.pending = rest := t2
  have t6' : s1.token_start_line = (s.start_token).token_start_line := t6
  have t7' : s1.token_start_column = (s.start_token).token_start_column := t7
  have hcol1 : s1.column = s.column + 1 := by
    have t5' : s1.column = nextColumn '#' (s.start_token).column := t5
    rw [t5', nextColumn, if_neg (by decide), if_neg (by decide), p4]
  have hcolne : ¬ s1.next_column = 2 := by
    simp only [Scan.next_column, hcol1]
    omega
  have hplace : s1.token_start = ⟨s.line_number, s.column⟩ := by
    simp only [Scan.token_start]
    rw [t6', t7', p5, p6]
  have hstep : lex_step s = (some (Except.error (mkError '#' s1)), s1) := by
    simp only [lex_step, ht, lex_arms]
    simp [hcolne]
  rw [hstep]
  exact ⟨by simp only [mkError, hplace], t2'⟩

/-- One lexer iteration beginning at `#` at column 1 but not followed by `!`: the
shebang guard fails on the lookahead, the `#` falls through to the catch-all arm, and
exactly one `UnexpectedCharacter('#')` error is emitted at the place of the `#`. -/
theorem step_hash_no_bang {s : Scan} {rest : List Char}
    (hpend : s.pending = '#' :: rest) (hnb : rest.head? ≠ some '!') :
    (lex_step s).1 = some (Except.error
      ⟨⟨s.line_number, s.column⟩, ErrorKind.UnexpectedCharacter '#'⟩) ∧
    (lex_step s).2.pending = rest := by
  obtain ⟨p1, p2, p3, p4, p5, p6⟩ := start_token_obs s
  have hp0 : (s.start_token).pending = '#' :: rest := by rw [p1, hpend]
  obtain ⟨t1, t2, t3, t4, t5, t6, t7⟩ := take_cons hp0
  rcases ht : (s.start_token).take with ⟨oc, s1⟩
  rw [ht] at t1 t2 t3 t4 t5 t6 t7
  subst t1
  have t2' : s1.pending = rest := t2
  have t6' : s1.token_start_line = (s.start_token).token_start_line := t6
  have t7' : s1.token_start_column = (s.start_token).token_start_column := t7
  have hfail : (s1.take_exactly '!').1 = false ∧ ObsEq s1 (s1.take_exactly '!').2 := by
    rcases hrest : rest with _ | ⟨r, rest2⟩
    · exact take_exactly_nil (by rw [t2', hrest])
    · refine take_exactly_neg (by rw [t2', hrest]) ?_
      rintro rfl
      exact hnb (by rw [hrest]; rfl)
  obtain ⟨f1, f2⟩ := hfail
  rcases hte : s1.take_exactly '!' with ⟨b, s2⟩
  rw [hte] at f1 f2
  subst f1
  have hplace : s2.token_start = ⟨s.line_number, s.column⟩ := by
    simp only [Scan.token_start]
    rw [f2.tsl, f2.tsc, t6', t7', p5, p6]
  by_cases hcol2 : s1.next_column = 2
  · have hstep : lex_step s = (some (Except.error (mkError '#' s2)), s2) := by
      simp only [lex_step, ht, lex_arms]
      simp [hcol2, hte]
    rw [hstep]
    exact ⟨by simp only [mkError, hplace], by rw [f2.pending, t2']⟩
  · have hstep : lex_step s = (some (Except.error (mkError '#' s1)), s1) := by
      simp only [lex_step, ht, lex_arms]
      simp [hcol2]
    rw [hstep]
    have hplace1 : s1.token_start = ⟨s.line_number, s.column⟩ := by
      simp only [Scan.token_start]
      rw [t6', t7', p5, p6]
    exact ⟨by simp only [mkError, hplace1], t2'⟩

/-- `lex_go` on an exhausted scan yields nothing, whatever the fuel. -/
theorem lex_go_nil {fuel : Nat} {s : Scan} (h : s.pending = []) :
    lex_go fuel s = [] := by
  rcases fuel with _ | fuel
  · rfl
  · obtain ⟨ie1, ie2⟩ := is_empty_spec s
    rcases hie : s.is_empty with ⟨b, s1⟩
    rw [hie] at ie1 ie2
    have ie1' : b = s.pending.isEmpty := ie1
    have hb : b = true := by rw [ie1', h]; rfl
    subst hb
    simp only [lex_go, hie]

/-- One unfolding of the `lex_go` loop on a non-exhausted scan. -/
theorem lex_go_cons (fuel : Nat) (s : Scan) (hne : s.pending ≠ []) :
    lex_go (fuel + 1) s =
      match lex_step (s.is_empty).2 with
      | (some e, s2) => e :: lex_go fuel s2
      | (none, s2) => lex_go fuel s2 := by
  obtain ⟨ie1, ie2⟩ := is_empty_spec s
  rcases hie : s.is_empty with ⟨b, s1⟩
  rw [hie] at ie1 ie2
  have ie1' : b = s.pending.isEmpty := ie1
  have hb : b = false := by
    rw [ie1']
    rcases hp : s.pending with _ | ⟨c, r⟩
    · exact absurd hp hne
    · rfl
  subst hb
  simp only [lex_go, hie]

/-- A loop-body outcome that emitted nothing cannot equal one that emitted. -/
theorem none_leaf {C : Prop} {sF s2 : Scan} {e : Except Error Token}
    (h : ((none, sF) : Option (Except Error Token) × Scan) = (some e, s2)) : C :=
  Option.noConfusion (congrArg Prod.fst h)

/-- A loop-body outcome that emitted an error cannot have emitted a token. -/
theorem error_leaf {C : Prop} {sF s2 : Scan} {er : Error} {e : Except Error Token}
    {t : Token}
    (h : ((some (Except.error er), sF) : Option (Except Error Token) × Scan)
      = (some e, s2))
    (het : e = Except.ok t) : C := by
  have h1 : some (Except.error er) = some e := congrArg Prod.fst h
  injection h1 with h1
  rw [het] at h1
  exact Except.noConfusion h1

/-- Every token emitted through the common emission path (src/lex.rs:160-164) carries
as its lexeme exactly the characters consumed since the start mark and as its place
the position recorded at that mark. -/
theorem emit_leaf {s0 s1 sF s2 : Scan} {c : Char} {tok : Tok}
    {e : Except Error Token}
    (ht : (s0.start_token).take = (some c, s1))
    (h : ((some (Except.ok (mkToken tok sF)), sF) :
      Option (Except Error Token) × Scan) = (some e, s2))
    (hcons : ∃ ds, Consumes s1 sF ds) :
    ∀ t : Token, e = Except.ok t →
      ∃ cs, s0.pending = cs ++ s2.pending ∧ t.lexeme.data = cs ∧
        t.place = ⟨s0.line_number, s0.column⟩ := by
  obtain ⟨ds, hds⟩ := hcons
  obtain ⟨p1, p2, p3, p4, p5, p6⟩ := start_token_obs s0
  have htail : Consumes (s0.start_token) sF ([c] ++ ds) :=
    consumes_trans (take_consumes ht) hds
  have h1 : some (Except.ok (mkToken tok sF)) = some e := congrArg Prod.fst h
  have h2 : sF = s2 := congrArg Prod.snd h
  injection h1 with h1
  intro t het
  have h3 : (Except.ok (mkToken tok sF) : Except Error Token) = Except.ok t := by
    rw [h1, het]
  injection h3 with h3
  refine ⟨[c] ++ ds, ?_, ?_, ?_⟩
  · have hp := htail.pending
    rw [p1] at hp
    rw [hp, h2]
  · rw [← h3]
    show sF.current_token.data = [c] ++ ds
    have hc := htail.current
    rw [p2] at hc
    simpa using hc
  · rw [← h3]
    show sF.token_start = ⟨s0.line_number, s0.column⟩
    simp only [Scan.token_start]
    rw [htail.tsl, htail.tsc, p5, p6]


/-- `string` returning through the success path hands back a token whose lexeme and
place obey the start-mark discipline; packaged for the case analysis below. -/
theorem string_leaf {s0 s1 sX s2 : Scan} {r e : Except Error Token}
    (ht : (s0.start_token).take = (some '"', s1))
    (hstr : string s1 = (r, sX))
    (h : ((some r, sX) : Option (Except Error Token) × Scan) = (some e, s2)) :
    ∀ t : Token, e = Except.ok t →
      ∃ cs, s0.pending = cs ++ s2.pending ∧ t.lexeme.data = cs ∧
        t.place = ⟨s0.line_number, s0.column⟩ := by
  intro t het
  have h1 : r = e := Option.some.inj (congrArg Prod.fst h)
  have h2 : sX = s2 := congrArg Prod.snd h
  have hstring : string s1 = (Except.ok t, s2) := by rw [hstr, h1, het, h2]
  obtain ⟨l1, l2, _, ⟨cs, hc⟩⟩ := string_spec_ok hstring
  have hc0 : Consumes (s0.start_token) s2 (['"'] ++ cs) :=
    consumes_trans (take_consumes ht) hc
  obtain ⟨p1, p2, p3, p4, p5, p6⟩ := start_token_obs s0
  refine ⟨['"'] ++ cs, ?_, ?_, ?_⟩
  · have hp := hc0.pending
    rw [p1] at hp
    exact hp
  · rw [l1]
    have hcd := hc0.current
    rw [p2] at hcd
    simpa using hcd
  · rw [l2]
    have m1 : s1.token_start_line = (s0.start_token).token_start_line :=
      (take_consumes ht).tsl
    have m2 : s1.token_start_column = (s0.start_token).token_start_column :=
      (take_consumes ht).tsc
    rw [show (⟨s1.token_start_line, s1.token_start_column⟩ : Place)
      = ⟨s0.line_number, s0.column⟩ from by rw [m1, m2, p5, p6]]

/-- Every token the loop body emits carries as its lexeme exactly the characters
consumed since the `start_token` mark of that iteration, in order, and as its place
the position recorded at that mark (not the position at emission time). This holds
uniformly across every arm of the classifier. -/
theorem lex_step_ok_invariant {s : Scan} {e : Except Error Token} {s2 : Scan}
    (h : lex_step s = (some e, s2)) :
    ∀ t : Token, e = Except.ok t →
      ∃ cs, s.pending = cs ++ s2.pending ∧ t.lexeme.data = cs ∧
        t.place = ⟨s.line_number, s.column⟩ := by
  rcases ht : (s.start_token).take with ⟨oc, s1⟩
  rcases oc with _ | c
  · simp only [lex_step, ht] at h
    exact fun t het => none_leaf h
  · simp only [lex_step, ht] at h
    unfold lex_arms at h
    by_cases h1 : c = '\n' ∨ c = ' ' ∨ c = '\t' ∨ c = '\r'
    · rw [if_pos h1] at h
      exact fun t het => none_leaf h
    · rw [if_neg h1] at h
      by_cases h2 : c = '+'
      · rw [if_pos h2] at h
        exact emit_leaf ht h ⟨[], consumes_refl s1⟩
      · rw [if_neg h2] at h
        by_cases h3 : c = '*'
        · rw [if_pos h3] at h
          exact emit_leaf ht h ⟨[], consumes_refl s1⟩
        · rw [if_neg h3] at h
          by_cases h4 : c = '-'
          · rw [if_pos h4] at h
            exact emit_leaf ht h ⟨[], consumes_refl s1⟩
          · rw [if_neg h4] at h
            by_cases h5 : c = '.'
            · rw [if_pos h5] at h
              exact emit_leaf ht h ⟨[], consumes_refl s1⟩
            · rw [if_neg h5] at h
              by_cases h6 : c = '/'
              · rw [if_pos h6] at h
                rcases hte : s1.take_exactly '/' with ⟨_ | _, sX⟩
                · rw [hte] at h
                  exact emit_leaf ht h ⟨[], by simpa using take_exactly_consumes hte⟩
                · rw [hte] at h
                  exact fun t het => none_leaf h
              · rw [if_neg h6] at h
                by_cases h7 : c = ';'
                · rw [if_pos h7] at h
                  exact emit_leaf ht h ⟨[], consumes_refl s1⟩
                · rw [if_neg h7] at h
                  by_cases h8 : c = ','
                  · rw [if_pos h8] at h
                    exact emit_leaf ht h ⟨[], consumes_refl s1⟩
                  · rw [if_neg h8] at h
                    by_cases h9 : c = '!'
                    · rw [if_pos h9] at h
                      rcases hte : s1.take_exactly '=' with ⟨_ | _, sX⟩
                      · rw [hte] at h
                        exact emit_leaf ht h ⟨[], by simpa using take_exactly_consumes hte⟩
                      · rw [hte] at h
                        exact emit_leaf ht h ⟨['='], by simpa using take_exactly_consumes hte⟩
                    · rw [if_neg h9] at h
                      by_cases h10 : c = '='
                      · rw [if_pos h10] at h
                        rcases hte : s1.take_exactly '=' with ⟨_ | _, sX⟩
                        · rw [hte] at h
                          exact emit_leaf ht h ⟨[], by simpa using take_exactly_consumes hte⟩
                        · rw [hte] at h
                          exact emit_leaf ht h ⟨['='], by simpa using take_exactly_consumes hte⟩
                      · rw [if_neg h10] at h
                        by_cases h11 : c.isDigit = true
                        · rw [if_pos h11] at h
                          rcases hn : number s1 with ⟨tok, sX⟩
                          rw [hn] at h
                          refine emit_leaf ht h ?_
                          have hcn := number_consumes s1
                          rw [hn] at hcn
                          exact hcn
                        · rw [if_neg h11] at h
                          by_cases h12 : c = '{'
                          · rw [if_pos h12] at h
                            exact emit_leaf ht h ⟨[], consumes_refl s1⟩
                          · rw [if_neg h12] at h
                            by_cases h13 : c = '}'
                            · rw [if_pos h13] at h
                              exact emit_leaf ht h ⟨[], consumes_refl s1⟩
                            · rw [if_neg h13] at h
                              by_cases h14 : c = '('
                              · rw [if_pos h14] at h
                                exact emit_leaf ht h ⟨[], consumes_refl s1⟩
                              · rw [if_neg h14] at h
                                by_cases h15 : c = ')'
                                · rw [if_pos h15] at h
                                  exact emit_leaf ht h ⟨[], consumes_refl s1⟩
                                · rw [if_neg h15] at h
                                  by_cases h16 : c = '<'
                                  · rw [if_pos h16] at h
                                    rcases hte : s1.take_exactly '=' with ⟨_ | _, sX⟩
                                    · rw [hte] at h
                                      exact emit_leaf ht h ⟨[], by simpa using take_exactly_consumes hte⟩
                                    · rw [hte] at h
                                      exact emit_leaf ht h ⟨['='], by simpa using take_exactly_consumes hte⟩
                                  · rw [if_neg h16] at h
                                    by_cases h17 : c = '>'
                                    · rw [if_pos h17] at h
                                      rcases hte : s1.take_exactly '=' with ⟨_ | _, sX⟩
                                      · rw [hte] at h
                                        exact emit_leaf ht h ⟨[], by simpa using take_exactly_consumes hte⟩
                                      · rw [hte] at h
                                        exact emit_leaf ht h ⟨['='], by simpa using take_exactly_consumes hte⟩
                                    · rw [if_neg h17] at h
                                      by_cases h18 : c = '"'
                                      · rw [if_pos h18] at h
                                        have hceq : c = '"' := h18
                                        subst hceq
                                        rcases hstr : string s1 with ⟨r, sX⟩
                                        rw [hstr] at h
                                        exact string_leaf ht hstr h
                                      · rw [if_neg h18] at h
                                        by_cases h19 : c.isAlpha = true ∨ c = '_'
                                        · rw [if_pos h19] at h
                                          rcases hn : word s1 with ⟨tok, sX⟩
                                          rw [hn] at h
                                          refine emit_leaf ht h ?_
                                          have hcn := word_consumes s1
                                          rw [hn] at hcn
                                          exact hcn
                                        · rw [if_neg h19] at h
                                          by_cases h20 : c = '#'
                                          · rw [if_pos h20] at h
                                            by_cases hcol : s1.next_column = 2
                                            · rw [if_pos hcol] at h
                                              rcases hte : s1.take_exactly '!' with ⟨_ | _, sX⟩
                                              · rw [hte] at h
                                                exact fun t het => error_leaf h het
                                              · rw [hte] at h
                                                exact fun t het => none_leaf h
                                            · rw [if_neg hcol] at h
                                              exact fun t het => error_leaf h het
                                          · rw [if_neg h20] at h
                                            exact fun t het => error_leaf h het

/-- The shape of every numeric lexeme the lexer builds: a non-empty run of ASCII
digits, optionally followed by a dot and a further non-empty run of ASCII digits. -/
def numShape (cs : List Char) : Bool :=
  let ds := cs.takeWhile Char.isDigit
  let rest := cs.dropWhile Char.isDigit
  !ds.isEmpty &&
    (rest.isEmpty ||
      (rest.head? == some '.' && !rest.tail.isEmpty && rest.tail.all Char.isDigit))

/-- Strip one leading `+` or `-` sign. Part of the grammar documented for the Rust
standard library `f64::from_str`, which the `parse().unwrap()` at src/lex.rs:181
invokes; the standard library is external to this repository, so its acceptance
grammar is modelled here from its documentation. -/
def stripSign (cs : List Char) : List Char :=
  match cs with
  | c :: rest => if c == '+' || c == '-' then rest else c :: rest
  | [] => []

/-- The optional exponent suffix of the documented `f64::from_str` grammar: empty, or
`e`/`E` followed by an optional sign and a non-empty digit run. -/
def expPart (cs : List Char) : Bool :=
  match cs with
  | [] => true
  | c :: rest =>
    (c == 'e' || c == 'E') &&
      (!(stripSign rest).isEmpty && (stripSign rest).all Char.isDigit)

/-- The `Number` production of the documented `f64::from_str` grammar:
`Digits '.'? Digits? Exp?` or `'.' Digits Exp?`. -/
def numberPart (cs : List Char) : Bool :=
  let ds := cs.takeWhile Char.isDigit
  let rest := cs.dropWhile Char.isDigit
  if ds.isEmpty then
    match rest with
    | '.' :: r2 =>
      !(r2.takeWhile Char.isDigit).isEmpty && expPart (r2.dropWhile Char.isDigit)
    | _ => false
  else
    match rest with
    | '.' :: r2 => expPart (r2.dropWhile Char.isDigit)
    | _ => expPart rest

/-- Acceptance by the grammar documented for the Rust standard library
`f64::from_str`: an optional sign followed by (case-insensitively) `inf`,
`infinity`, `nan`, or a `Number`. A string this predicate accepts parses
successfully as an `f64`, so the `unwrap` at src/lex.rs:181 cannot panic on it. -/
def f64FromStrAccepts (s : String) : Bool :=
  let cs := stripSign s.data
  (cs.map Char.toLower == "inf".data) || (cs.map Char.toLower == "infinity".data) ||
    (cs.map Char.toLower == "nan".data) || numberPart cs

/-- A non-empty all-digit run satisfies `numShape`. -/
theorem numShape_digits {xs : List Char} (hne : xs ≠ [])
    (hd : ∀ c ∈ xs, c.isDigit = true) : numShape xs = true := by
  obtain ⟨htw, hdw⟩ := @takeWhile_all_append Char.isDigit xs [] hd (fun c hc => by cases hc)
  rw [List.append_nil] at htw hdw
  unfold numShape
  rw [htw, hdw]
  simp [hne]

/-- A non-empty digit run, a dot, and a further non-empty digit run satisfy
`numShape`. -/
theorem numShape_frac {xs ys : List Char} (hne : xs ≠ [])
    (hd : ∀ c ∈ xs, c.isDigit = true) (hne2 : ys ≠ [])
    (hd2 : ∀ c ∈ ys, c.isDigit = true) :
    numShape (xs ++ '.' :: ys) = true := by
  obtain ⟨htw, hdw⟩ := @takeWhile_all_append Char.isDigit xs ('.' :: ys) hd
    (fun c hc => by
      have : c = '.' := by
        rw [show ('.' :: ys).head? = some '.' from Eq.refl _] at hc
        exact (Option.some.inj hc).symm
      rw [this]
      decide)
  unfold numShape
  rw [htw, hdw]
  simp [hne, hne2, List.all_eq_true]
  exact fun c hc => hd2 c hc

/-- Every numeric lexeme shape is accepted by the documented `f64::from_str`
grammar. -/
theorem numShape_accepted {cs : List Char} (h : numShape cs = true) :
    f64FromStrAccepts ⟨cs⟩ = true := by
  unfold numShape at h
  simp only [Bool.and_eq_true, Bool.not_eq_true'] at h
  obtain ⟨h1, h2⟩ := h
  have hhead : ∃ d r, cs = d :: r ∧ d.isDigit = true := by
    rcases hcs : cs with _ | ⟨d, r⟩
    · rw [hcs] at h1
      simp at h1
    · refine ⟨d, r, Eq.refl _, ?_⟩
      by_cases hd : d.isDigit = true
      · exact hd
      · rw [hcs, List.takeWhile_cons] at h1
        simp [Bool.not_eq_true _ ▸ hd] at h1
  obtain ⟨d, r, hcs, hd⟩ := hhead
  have hstrip : stripSign cs = cs := by
    rw [hcs]
    unfold stripSign
    have hp : ¬ (d == '+' || d == '-') = true := by
      simp only [Bool.or_eq_true, beq_iff_eq]
      rintro (rfl | rfl) <;> exact absurd hd (by decide)
    simp [hp]
  unfold f64FromStrAccepts
  simp only [hstrip]
  simp only [Bool.or_eq_true]
  refine Or.inr ?_
  unfold numberPart
  rw [if_neg (by simp [h1])]
  rw [Bool.or_eq_true] at h2
  rcases h2 with h2 | h2
  · have hdw : cs.dropWhile Char.isDigit = [] := by
      simpa using h2
    rw [hdw]
    rfl
  · simp only [Bool.and_eq_true, beq_iff_eq, Bool.not_eq_true'] at h2
    obtain ⟨⟨hh, hne⟩, hall⟩ := h2
    rcases hdwc : cs.dropWhile Char.isDigit with _ | ⟨x, tail⟩
    · rw [hdwc] at hh
      cases hh
    · rw [hdwc] at hh hne hall
      have hx : x = '.' := Option.some.inj hh
      subst hx
      simp only [List.tail_cons] at hne hall
      have hdwt : tail.dropWhile Char.isDigit = [] := by
        rw [List.dropWhile_eq_nil_iff]
        intro a ha
        exact (List.all_eq_true.mp hall) a ha
      show expPart (tail.dropWhile Char.isDigit) = true
      rw [hdwt]
      rfl

/-- Every branch of `number` returns a token carrying exactly the final accumulated
text of the scanner it returns. -/
theorem number_tok_current (s : Scan) :
    (number s).1 = Tok.Number ((number s).2).current_token := by
  rcases hp2 : (s.take_while fun c => c.isDigit).peek2 with ⟨oc, s2⟩
  rcases oc with _ | ⟨c1, c2⟩
  · simp only [number, hp2]
  · by_cases hcc : c1 = '.' ∧ c2.isDigit = true
    · rcases hte : s2.take_exactly '.' with ⟨b, s3⟩
      simp only [number, hp2, hte]
      rw [if_pos hcc]
    · simp only [number, hp2, if_neg hcc]

/-- When `number` is entered with a non-empty all-digit accumulator, the text in the
returned token satisfies the numeric lexeme shape. -/
theorem number_tok_shape {s : Scan} (hcur : s.current_token.data ≠ [])
    (hdig : ∀ c ∈ s.current_token.data, c.isDigit = true)
    {v : String} (hv : (number s).1 = Tok.Number v) :
    numShape v.data = true := by
  by_cases hfrac : ∃ d2 r2, s.pending.dropWhile Char.isDigit = '.' :: d2 :: r2 ∧
      d2.isDigit = true
  · obtain ⟨d2, r2, hdw, hd2⟩ := hfrac
    obtain ⟨n1, _, _, _, _⟩ := number_spec_frac s hdw hd2
    rw [n1] at hv
    injection hv with hv
    rw [← hv]
    rw [show (⟨s.current_token.data ++ s.pending.takeWhile Char.isDigit ++
      '.' :: (d2 :: r2).takeWhile Char.isDigit⟩ : String).data =
      (s.current_token.data ++ s.pending.takeWhile Char.isDigit) ++
        '.' :: (d2 :: r2).takeWhile Char.isDigit from Eq.refl _]
    apply numShape_frac
    · intro hx
      exact hcur (by simpa using (List.append_eq_nil.mp hx).1)
    · intro c hc
      rcases List.mem_append.mp hc with hc | hc
      · exact hdig c hc
      · exact List.mem_takeWhile_imp hc
    · rw [List.takeWhile_cons, if_pos hd2]
      intro hx
      cases hx
    · intro c hc
      exact List.mem_takeWhile_imp hc
  · have hnof : ∀ d r, s.pending.dropWhile Char.isDigit = '.' :: d :: r →
        d.isDigit = false := by
      intro d r hdr
      by_cases hd : d.isDigit = true
      · exact absurd ⟨d, r, hdr, hd⟩ hfrac
      · exact Bool.not_eq_true _ ▸ hd
    obtain ⟨n1, _, _, _, _, _, _⟩ := number_spec_nofrac s hnof
    rw [n1] at hv
    injection hv with hv
    rw [← hv]
    apply numShape_digits
    · intro hx
      exact hcur (by simpa using (List.append_eq_nil.mp hx).1)
    · intro c hc
      rcases List.mem_append.mp hc with hc | hc
      · exact hdig c hc
      · exact List.mem_takeWhile_imp hc

/-- The keyword table never produces a `Number` token. -/
theorem word_tok_ne_number (str : String) (v : String) :
    word_tok str ≠ Tok.Number v := by
  unfold word_tok
  split <;> (intro hx; cases hx)

/-- A common-path emission whose kind is not `Number` is irrelevant to the numeric
shape invariant. -/
theorem emit_nonnum_leaf {sF s2 : Scan} {tok : Tok} {e : Except Error Token}
    (h : ((some (Except.ok (mkToken tok sF)), sF) :
      Option (Except Error Token) × Scan) = (some e, s2))
    (hnn : ∀ v : String, ¬ tok = Tok.Number v) :
    ∀ (t : Token) (v : String), e = Except.ok t → t.tok = Tok.Number v →
      numShape v.data = true ∧ v = t.lexeme := by
  intro t v het htok
  exfalso
  have h1 : some (Except.ok (mkToken tok sF)) = some e := congrArg Prod.fst h
  injection h1 with h1
  rw [het] at h1
  injection h1 with h1
  have htt : t.tok = tok := by rw [← h1]; rfl
  rw [htok] at htt
  exact hnn v htt.symm

/-- A `string` emission carries a `String` kind, never a `Number`. -/
theorem string_shape_leaf {s1 sX s2 : Scan} {r e : Except Error Token}
    (hstr : string s1 = (r, sX))
    (h : ((some r, sX) : Option (Except Error Token) × Scan) = (some e, s2)) :
    ∀ (t : Token) (v : String), e = Except.ok t → t.tok = Tok.Number v →
      numShape v.data = true ∧ v = t.lexeme := by
  intro t v het htok
  exfalso
  have h1 : r = e := Option.some.inj (congrArg Prod.fst h)
  have h2 : sX = s2 := congrArg Prod.snd h
  have hstring : string s1 = (Except.ok t, s2) := by rw [hstr, h1, het, h2]
  obtain ⟨_, _, ⟨str, hs⟩, _⟩ := string_spec_ok hstring
  rw [htok] at hs
  exact Tok.noConfusion hs

/-- A digit-arm emission carries as its `Number` text exactly its lexeme, and that
text satisfies the numeric lexeme shape, provided the accumulator held a non-empty
digit run when `number` was entered. -/
theorem digit_shape_leaf {s1 sX s2 : Scan} {tok : Tok} {e : Except Error Token}
    (hn : number s1 = (tok, sX))
    (h : ((some (Except.ok (mkToken tok sX)), sX) :
      Option (Except Error Token) × Scan) = (some e, s2))
    (hcur : s1.current_token.data ≠ [])
    (hdig : ∀ c ∈ s1.current_token.data, c.isDigit = true) :
    ∀ (t : Token) (v : String), e = Except.ok t → t.tok = Tok.Number v →
      numShape v.data = true ∧ v = t.lexeme := by
  intro t v het htok
  have h1 : some (Except.ok (mkToken tok sX)) = some e := congrArg Prod.fst h
  injection h1 with h1
  rw [het] at h1
  injection h1 with h1
  have htok2 : tok = Tok.Number sX.current_token := by
    have hx := number_tok_current s1
    rw [hn] at hx
    exact hx
  have htt : t.tok = tok := by rw [← h1]; rfl
  rw [htok2, htok] at htt
  injection htt with hveq
  constructor
  · refine number_tok_shape hcur hdig (v := v) ?_
    rw [hn]
    show tok = Tok.Number v
    rw [htok2, hveq]
  · have hlx : t.lexeme = sX.current_token := by rw [← h1]; rfl
    rw [hlx, hveq]

/-- Every `Number`-kinded token the loop body emits carries as its numeric text
exactly its own lexeme, and that text is a non-empty digit run optionally followed
by a dot and a further non-empty digit run. -/
theorem lex_step_number_shape {s : Scan} {e : Except Error Token} {s2 : Scan}
    (h : lex_step s = (some e, s2)) :
    ∀ (t : Token) (v : String), e = Except.ok t → t.tok = Tok.Number v →
      numShape v.data = true ∧ v = t.lexeme := by
  rcases ht : (s.start_token).take with ⟨oc, s1⟩
  rcases oc with _ | c
  · simp only [lex_step, ht] at h
    exact fun t v het htok => none_leaf h
  · simp only [lex_step, ht] at h
    unfold lex_arms at h
    by_cases h1 : c = '\n' ∨ c = ' ' ∨ c = '\t' ∨ c = '\r'
    · rw [if_pos h1] at h
      exact fun t v het htok => none_leaf h
    · rw [if_neg h1] at h
      by_cases h2 : c = '+'
      · rw [if_pos h2] at h
        exact emit_nonnum_leaf h (fun v hv => Tok.noConfusion hv)
      · rw [if_neg h2] at h
        by_cases h3 : c = '*'
        · rw [if_pos h3] at h
          exact emit_nonnum_leaf h (fun v hv => Tok.noConfusion hv)
        · rw [if_neg h3] at h
          by_cases h4 : c = '-'
          · rw [if_pos h4] at h
            exact emit_nonnum_leaf h (fun v hv => Tok.noConfusion hv)
          · rw [if_neg h4] at h
            by_cases h5 : c = '.'
            · rw [if_pos h5] at h
              exact emit_nonnum_leaf h (fun v hv => Tok.noConfusion hv)
            · rw [if_neg h5] at h
              by_cases h6 : c = '/'
              · rw [if_pos h6] at h
                rcases hte : s1.take_exactly '/' with ⟨_ | _, sX⟩
                · rw [hte] at h
                  exact emit_nonnum_leaf h (fun v hv => Tok.noConfusion hv)
                · rw [hte] at h
                  exact fun t v het htok => none_leaf h
              · rw [if_neg h6] at h
                by_cases h7 : c = ';'
                · rw [if_pos h7] at h
                  exact emit_nonnum_leaf h (fun v hv => Tok.noConfusion hv)
                · rw [if_neg h7] at h
                  by_cases h8 : c = ','
                  · rw [if_pos h8] at h
                    exact emit_nonnum_leaf h (fun v hv => Tok.noConfusion hv)
                  · rw [if_neg h8] at h
                    by_cases h9 : c = '!'
                    · rw [if_pos h9] at h
                      rcases hte : s1.take_exactly '=' with ⟨_ | _, sX⟩
                      · rw [hte] at h
                        exact emit_nonnum_leaf h (fun v hv => Tok.noConfusion hv)
                      · rw [hte] at h
                        exact emit_nonnum_leaf h (fun v hv => Tok.noConfusion hv)
                    · rw [if_neg h9] at h
                      by_cases h10 : c = '='
                      · rw [if_pos h10] at h
                        rcases hte : s1.take_exactly '=' with ⟨_ | _, sX⟩
                        · rw [hte] at h
                          exact emit_nonnum_leaf h (fun v hv => Tok.noConfusion hv)
                        · rw [hte] at h
                          exact emit_nonnum_leaf h (fun v hv => Tok.noConfusion hv)
                      · rw [if_neg h10] at h
                        by_cases h11 : c.isDigit = true
                        · rw [if_pos h11] at h
                          rcases hn : number s1 with ⟨tok, sX⟩
                          rw [hn] at h
                          have hcurd : s1.current_token.data = [c] := by
                            have hx := (take_consumes ht).current
                            rw [(start_token_obs s).2.1] at hx
                            simpa using hx
                          refine digit_shape_leaf hn h ?_ ?_
                          · rw [hcurd]
                            intro hx
                            cases hx
                          · rw [hcurd]
                            intro x hx
                            have hxc : x = c := by simpa using hx
                            rw [hxc]
                            exact h11
                        · rw [if_neg h11] at h
                          by_cases h12 : c = '{'
                          · rw [if_pos h12] at h
                            exact emit_nonnum_leaf h (fun v hv => Tok.noConfusion hv)
                          · rw [if_neg h12] at h
                            by_cases h13 : c = '}'
                            · rw [if_pos h13] at h
                              exact emit_nonnum_leaf h (fun v hv => Tok.noConfusion hv)
                            · rw [if_neg h13] at h
                              by_cases h14 : c = '('
                              · rw [if_pos h14] at h
                                exact emit_nonnum_leaf h (fun v hv => Tok.noConfusion hv)
                              · rw [if_neg h14] at h
                                by_cases h15 : c = ')'
                                · rw [if_pos h15] at h
                                  exact emit_nonnum_leaf h (fun v hv => Tok.noConfusion hv)
                                · rw [if_neg h15] at h
                                  by_cases h16 : c = '<'
                                  · rw [if_pos h16] at h
                                    rcases hte : s1.take_exactly '=' with ⟨_ | _, sX⟩
                                    · rw [hte] at h
                                      exact emit_nonnum_leaf h (fun v hv => Tok.noConfusion hv)
                                    · rw [hte] at h
                                      exact emit_nonnum_leaf h (fun v hv => Tok.noConfusion hv)
                                  · rw [if_neg h16] at h
                                    by_cases h17 : c = '>'
                                    · rw [if_pos h17] at h
                                      rcases hte : s1.take_exactly '=' with ⟨_ | _, sX⟩
                                      · rw [hte] at h
                                        exact emit_nonnum_leaf h (fun v hv => Tok.noConfusion hv)
                                      · rw [hte] at h
                                        exact emit_nonnum_leaf h (fun v hv => Tok.noConfusion hv)
                                    · rw [if_neg h17] at h
                                      by_cases h18 : c = '"'
                                      · rw [if_pos h18] at h
                                        rcases hstr : string s1 with ⟨r, sX⟩
                                        rw [hstr] at h
                                        exact string_shape_leaf hstr h
                                      · rw [if_neg h18] at h
                                        by_cases h19 : c.isAlpha = true ∨ c = '_'
                                        · rw [if_pos h19] at h
                                          rcases hn : word s1 with ⟨tok, sX⟩
                                          rw [hn] at h
                                          refine emit_nonnum_leaf h ?_
                                          intro v hv
                                          have hw : (word s1).1 = tok := congrArg Prod.fst hn
                                          rw [hv] at hw
                                          exact word_tok_ne_number _ v hw
                                        · rw [if_neg h19] at h
                                          by_cases h20 : c = '#'
                                          · rw [if_pos h20] at h
                                            by_cases hcol : s1.next_column = 2
                                            · rw [if_pos hcol] at h
                                              rcases hte : s1.take_exactly '!' with ⟨_ | _, sX⟩
                                              · rw [hte] at h
                                                exact fun t v het htok => error_leaf h het
                                              · rw [hte] at h
                                                exact fun t v het htok => none_leaf h
                                            · rw [if_neg hcol] at h
                                              exact fun t v het htok => error_leaf h het
                                          · rw [if_neg h20] at h
                                            exact fun t v het htok => error_leaf h het

/-- A failed `take` leaves the scanner unchanged. -/
theorem take_none_eq {s s1 : Scan} (h : s.take = (none, s1)) : s1 = s := by
  rcases hla : s.lookahead with _ | ⟨a, la⟩ <;>
    rcases hin : s.input with _ | ⟨b, inp⟩ <;>
    simp [Scan.take, hla, hin] at h
  exact h.symm

/-- `string` as a whole consumes some run of characters. -/
theorem string_consumes (s : Scan) : ∃ cs, Consumes s (string s).2 cs := by
  obtain ⟨cs1, hc1⟩ := string_go_consumes (s.remaining + 1) s ""
  rcases hsg : string_go (s.remaining + 1) s "" with ⟨acc1, s2⟩
  rw [hsg] at hc1
  rcases hte : s2.take_exactly '"' with ⟨b, s3⟩
  have hc2 := take_exactly_consumes hte
  rcases b with _ | _
  · refine ⟨cs1 ++ [], ?_⟩
    simp only [string, hsg, hte]
    exact consumes_trans hc1 (by simpa using hc2)
  · refine ⟨cs1 ++ ['"'], ?_⟩
    simp only [string, hsg, hte]
    exact consumes_trans hc1 (by simpa using hc2)

/-- Any loop-body branch whose final scanner is reachable by consumption leaves the
pending stream a suffix of the original. -/
theorem pending_leaf {s0 s1 sF s2 : Scan} {c : Char}
    {x oe : Option (Except Error Token)}
    (ht : (s0.start_token).take = (some c, s1))
    (h : ((x, sF) : Option (Except Error Token) × Scan) = (oe, s2))
    (hcons : ∃ ds, Consumes s1 sF ds) :
    ∃ cs, s0.pending = cs ++ s2.pending := by
  obtain ⟨ds, hds⟩ := hcons
  have h2 : sF = s2 := congrArg Prod.snd h
  have htail := consumes_trans (take_consumes ht) hds
  refine ⟨[c] ++ ds, ?_⟩
  have hp := htail.pending
  rw [(start_token_obs s0).1] at hp
  rw [hp, h2]

/-- After any loop-body iteration, the pending stream is a suffix of what it was:
the body only ever consumes characters from the front. -/
theorem lex_step_pending_suffix {s : Scan} {oe : Option (Except Error Token)}
    {s2 : Scan} (h : lex_step s = (oe, s2)) :
    ∃ cs, s.pending = cs ++ s2.pending := by
  rcases ht : (s.start_token).take with ⟨oc, s1⟩
  rcases oc with _ | c
  · simp only [lex_step, ht] at h
    have h2 : s1 = s2 := congrArg Prod.snd h
    have h3 : s1 = s.start_token := take_none_eq ht
    refine ⟨[], ?_⟩
    rw [← h2, h3, (start_token_obs s).1]
    rfl
  · simp only [lex_step, ht] at h
    unfold lex_arms at h
    by_cases h1 : c = '\n' ∨ c = ' ' ∨ c = '\t' ∨ c = '\r'
    · rw [if_pos h1] at h
      exact pending_leaf ht h ⟨[], consumes_refl s1⟩
    · rw [if_neg h1] at h
      by_cases h2 : c = '+'
      · rw [if_pos h2] at h
        exact pending_leaf ht h ⟨[], consumes_refl s1⟩
      · rw [if_neg h2] at h
        by_cases h3 : c = '*'
        · rw [if_pos h3] at h
          exact pending_leaf ht h ⟨[], consumes_refl s1⟩
        · rw [if_neg h3] at h
          by_cases h4 : c = '-'
          · rw [if_pos h4] at h
            exact pending_leaf ht h ⟨[], consumes_refl s1⟩
          · rw [if_neg h4] at h
            by_cases h5 : c = '.'
            · rw [if_pos h5] at h
              exact pending_leaf ht h ⟨[], consumes_refl s1⟩
            · rw [if_neg h5] at h
              by_cases h6 : c = '/'
              · rw [if_pos h6] at h
                rcases hte : s1.take_exactly '/' with ⟨_ | _, sX⟩
                · rw [hte] at h
                  exact pending_leaf ht h ⟨[], by simpa using take_exactly_consumes hte⟩
                · rw [hte] at h
                  refine pending_leaf ht h ?_
                  obtain ⟨ds2, hds2⟩ := take_until_consumes (fun cc => cc == '\n') sX
                  exact ⟨_, consumes_trans (by simpa using take_exactly_consumes hte) hds2⟩
              · rw [if_neg h6] at h
                by_cases h7 : c = ';'
                · rw [if_pos h7] at h
                  exact pending_leaf ht h ⟨[], consumes_refl s1⟩
                · rw [if_neg h7] at h
                  by_cases h8 : c = ','
                  · rw [if_pos h8] at h
                    exact pending_leaf ht h ⟨[], consumes_refl s1⟩
                  · rw [if_neg h8] at h
                    by_cases h9 : c = '!'
                    · rw [if_pos h9] at h
                      rcases hte : s1.take_exactly '=' with ⟨_ | _, sX⟩
                      · rw [hte] at h
                        exact pending_leaf ht h ⟨[], by simpa using take_exactly_consumes hte⟩
                      · rw [hte] at h
                        exact pending_leaf ht h ⟨['='], by simpa using take_exactly_consumes hte⟩
                    · rw [if_neg h9] at h
                      by_cases h10 : c = '='
                      · rw [if_pos h10] at h
                        rcases hte : s1.take_exactly '=' with ⟨_ | _, sX⟩
                        · rw [hte] at h
                          exact pending_leaf ht h ⟨[], by simpa using take_exactly_consumes hte⟩
                        · rw [hte] at h
                          exact pending_leaf ht h ⟨['='], by simpa using take_exactly_consumes hte⟩
                      · rw [if_neg h10] at h
                        by_cases h11 : c.isDigit = true
                        · rw [if_pos h11] at h
                          rcases hn : number s1 with ⟨tok, sX⟩
                          rw [hn] at h
                          refine pending_leaf ht h ?_
                          have hcn := number_consumes s1
                          rw [hn] at hcn
                          exact hcn
                        · rw [if_neg h11] at h
                          by_cases h12 : c = '{'
                          · rw [if_pos h12] at h
                            exact pending_leaf ht h ⟨[], consumes_refl s1⟩
                          · rw [if_neg h12] at h
                            by_cases h13 : c = '}'
                            · rw [if_pos h13] at h
                              exact pending_leaf ht h ⟨[], consumes_refl s1⟩
                            · rw [if_neg h13] at h
                              by_cases h14 : c = '('
                              · rw [if_pos h14] at h
                                exact pending_leaf ht h ⟨[], consumes_refl s1⟩
                              · rw [if_neg h14] at h
                                by_cases h15 : c = ')'
                                · rw [if_pos h15] at h
                                  exact pending_leaf ht h ⟨[], consumes_refl s1⟩
                                · rw [if_neg h15] at h
                                  by_cases h16 : c = '<'
                                  · rw [if_pos h16] at h
                                    rcases hte : s1.take_exactly '=' with ⟨_ | _, sX⟩
                                    · rw [hte] at h
                                      exact pending_leaf ht h ⟨[], by simpa using take_exactly_consumes hte⟩
                                    · rw [hte] at h
                                      exact pending_leaf ht h ⟨['='], by simpa using take_exactly_consumes hte⟩
                                  · rw [if_neg h16] at h
                                    by_cases h17 : c = '>'
                                    · rw [if_pos h17] at h
                                      rcases hte : s1.take_exactly '=' with ⟨_ | _, sX⟩
                                      · rw [hte] at h
                                        exact pending_leaf ht h ⟨[], by simpa using take_exactly_consumes hte⟩
                                      · rw [hte] at h
                                        exact pending_leaf ht h ⟨['='], by simpa using take_exactly_consumes hte⟩
                                    · rw [if_neg h17] at h
                                      by_cases h18 : c = '"'
                                      · rw [if_pos h18] at h
                                        rcases hstr : string s1 with ⟨r, sX⟩
                                        rw [hstr] at h
                                        refine pending_leaf ht h ?_
                                        have hcn := string_consumes s1
                                        rw [hstr] at hcn
                                        exact hcn
                                      · rw [if_neg h18] at h
                                        by_cases h19 : c.isAlpha = true ∨ c = '_'
                                        · rw [if_pos h19] at h
                                          rcases hn : word s1 with ⟨tok, sX⟩
                                          rw [hn] at h
                                          refine pending_leaf ht h ?_
                                          have hcn := word_consumes s1
                                          rw [hn] at hcn
                                          exact hcn
                                        · rw [if_neg h19] at h
                                          by_cases h20 : c = '#'
                                          · rw [if_pos h20] at h
                                            by_cases hcol : s1.next_column = 2
                                            · rw [if_pos hcol] at h
                                              rcases hte : s1.take_exactly '!' with ⟨_ | _, sX⟩
                                              · rw [hte] at h
                                                exact pending_leaf ht h ⟨[], by simpa using take_exactly_consumes hte⟩
                                              · rw [hte] at h
                                                refine pending_leaf ht h ?_
                                                obtain ⟨ds2, hds2⟩ := take_until_consumes (fun cc => cc == '\n') sX
                                                exact ⟨_, consumes_trans (by simpa using take_exactly_consumes hte) hds2⟩
                                            · rw [if_neg hcol] at h
                                              exact pending_leaf ht h ⟨[], consumes_refl s1⟩
                                          · rw [if_neg h20] at h
                                            exact pending_leaf ht h ⟨[], consumes_refl s1⟩

/-- Over any run of the lexing loop, every emitted token's lexeme is a contiguous
block of the pending characters the run started with. -/
theorem lex_go_lexeme_substring :
    ∀ (fuel : Nat) (s : Scan) (en : Except Error Token),
      en ∈ lex_go fuel s → ∀ t : Token, en = Except.ok t →
        ∃ pre post, s.pending = pre ++ t.lexeme.data ++ post := by
  intro fuel
  induction fuel with
  | zero =>
    intro s en hmem
    cases hmem
  | succ fuel ih =>
    intro s en hmem
    rcases hie : s.is_empty with ⟨b, s1⟩
    obtain ⟨ie1, ie2⟩ := is_empty_spec s
    rw [hie] at ie1 ie2
    rcases b with _ | _
    · simp only [lex_go, hie] at hmem
      rcases hstep : lex_step s1 with ⟨oe, s2⟩
      rw [hstep] at hmem
      obtain ⟨cs0, hcs0⟩ := lex_step_pending_suffix hstep
      have iep : s1.pending = s.pending := ie2.pending
      rw [iep] at hcs0
      rcases oe with _ | e
      · have hmem2 : en ∈ lex_go fuel s2 := hmem
        intro t het
        obtain ⟨pre, post, hsp⟩ := ih s2 en hmem2 t het
        refine ⟨cs0 ++ pre, post, ?_⟩
        rw [hcs0, hsp]
        simp [List.append_assoc]
      · have hmem2 : en ∈ e :: lex_go fuel s2 := hmem
        rcases List.mem_cons.mp hmem2 with hmem3 | hmem3
        · intro t het
          have hete : e = Except.ok t := by rw [← hmem3]; exact het
          obtain ⟨cs, hp, hl, _⟩ := lex_step_ok_invariant hstep t hete
          refine ⟨[], s2.pending, ?_⟩
          rw [iep] at hp
          rw [hp, hl]
          rfl
        · intro t het
          obtain ⟨pre, post, hsp⟩ := ih s2 en hmem3 t het
          refine ⟨cs0 ++ pre, post, ?_⟩
          rw [hcs0, hsp]
          simp [List.append_assoc]
    · simp only [lex_go, hie] at hmem
      cases hmem

/-- Over any run of the lexing loop, every emitted `Number` token carries its own
lexeme as numeric text, and that text has the numeric lexeme shape. -/
theorem lex_go_number_shape :
    ∀ (fuel : Nat) (s : Scan) (en : Except Error Token),
      en ∈ lex_go fuel s → ∀ (t : Token) (v : String), en = Except.ok t →
        t.tok = Tok.Number v → numShape v.data = true ∧ v = t.lexeme := by
  intro fuel
  induction fuel with
  | zero =>
    intro s en hmem
    cases hmem
  | succ fuel ih =>
    intro s en hmem
    rcases hie : s.is_empty with ⟨b, s1⟩
    rcases b with _ | _
    · simp only [lex_go, hie] at hmem
      rcases hstep : lex_step s1 with ⟨oe, s2⟩
      rw [hstep] at hmem
      rcases oe with _ | e
      · exact ih s2 en hmem
      · have hmem2 : en ∈ e :: lex_go fuel s2 := hmem
        rcases List.mem_cons.mp hmem2 with hmem3 | hmem3
        · intro t v het htok
          have hete : e = Except.ok t := by rw [← hmem3]; exact het
          exact lex_step_number_shape hstep t v hete htok
        · exact ih s2 en hmem3
    · simp only [lex_go, hie] at hmem
      cases hmem

/-- The sixteen keyword spellings of the table in `word` (src/lex.rs:206-224). -/
def keywordSpellings : List String :=
  ["and", "class", "else", "false", "for", "fun", "if", "nil", "or", "print",
   "return", "super", "this", "true", "var", "while"]

/-- A scanned word whose spelling is not in the keyword table becomes an
`Identifier` carrying exactly that spelling. -/
theorem word_tok_non_keyword (str : String) (h : str ∉ keywordSpellings) :
    word_tok str = Tok.Identifier str := by
  simp only [keywordSpellings, List.mem_cons, List.not_mem_nil, or_false,
    not_or] at h
  obtain ⟨n1, n2, n3, n4, n5, n6, n7, n8, n9, n10, n11, n12, n13, n14, n15, n16⟩ := h
  unfold word_tok
  split <;> simp_all

/-- C1 (counterexample): in the input consisting of a newline followed by `#!q`, the
`#!` begins at line 2, column 1 — not at line 1, column 1. The claim requires such a
`#!` not to be stripped as a shebang (lexing would then emit `UnexpectedCharacter`
errors for `#` and `!`), but the code strips the whole line and emits nothing:
the result stream is empty. This matches the repository's own `ignore_shebang` test,
which expects a `#!` line to be discarded on line 2 as well. -/
theorem lex_C1_counterexample : lex "\n#!q" = [] := by rfl

/-- C1 (amended): the shebang branch (src/lex.rs:147-151) is keyed off the column
only, not the line. A `#` starts a discarded shebang line exactly when it is consumed
at column 1 — of any line — and is immediately followed by `!`; consuming it at any
other column, or without a following `!`, instead emits one `UnexpectedCharacter('#')`
error at the position of the `#` and consumes only the `#`. The final conjunct runs
the lexer over the repository's own two-line shebang example. -/
theorem lex_C1_shebang_column_only :
    (∀ (s : Scan) (rest : List Char), s.pending = '#' :: '!' :: rest → s.column = 1 →
      (lex_step s).1 = none ∧
      (lex_step s).2.pending = (rest.dropWhile (fun c => !(c == '\n'))).tail) ∧
    (∀ (s : Scan) (rest : List Char), s.pending = '#' :: rest → s.column ≠ 1 →
      (lex_step s).1 = some (Except.error
        ⟨⟨s.line_number, s.column⟩, ErrorKind.UnexpectedCharacter '#'⟩) ∧
      (lex_step s).2.pending = rest) ∧
    (∀ (s : Scan) (rest : List Char), s.pending = '#' :: rest →
      rest.head? ≠ some '!' →
      (lex_step s).1 = some (Except.error
        ⟨⟨s.line_number, s.column⟩, ErrorKind.UnexpectedCharacter '#'⟩) ∧
      (lex_step s).2.pending = rest) ∧
    lex "#! mbplox --yolo\n#! maybe also a second line\n123\n" =
      [Except.ok ⟨Tok.Number "123", ⟨3, 1⟩, "123"⟩] :=
  ⟨fun s rest h1 h2 => step_hash_shebang h1 h2,
   fun s rest h1 h2 => step_hash_not_col1 h1 h2,
   fun s rest h1 h2 => step_hash_no_bang h1 h2,
   by rfl⟩

/-- C1 (witness): the amended theorem evaluated at a concrete scanner whose pending
stream is `#!q` and whose column is 1. -/
theorem lex_C1_witness :
    (lex_step (Scan.new "#!q")).1 = none ∧
    (lex_step (Scan.new "#!q")).2.pending =
      ((['q'] : List Char).dropWhile (fun c => !(c == '\n'))).tail :=
  lex_C1_shebang_column_only.1 (Scan.new "#!q") ['q'] (by rfl) (by rfl)

/-- C2: a character matched by no classifier arm produces exactly one
`UnexpectedCharacter` error carrying that character and the position where it began;
exactly that one character is consumed (the column advances by one, the line is
unchanged) and scanning continues. The final conjunct checks the claimed interleaving
on the input `hash##bang` — token, two errors at columns 5 and 6, token, in source
order, with no abort. -/
theorem lex_C2_error_recovery :
    (∀ (s : Scan) (c : Char) (rest : List Char), s.pending = c :: rest →
      handledChar c = false →
      (lex_step s).1 = some (Except.error
        ⟨⟨s.line_number, s.column⟩, ErrorKind.UnexpectedCharacter c⟩) ∧
      (lex_step s).2.pending = rest ∧
      (lex_step s).2.column = s.column + 1 ∧
      (lex_step s).2.line_number = s.line_number) ∧
    lex "hash##bang\n" =
      [Except.ok ⟨Tok.Identifier "hash", ⟨1, 1⟩, "hash"⟩,
       Except.error ⟨⟨1, 5⟩, ErrorKind.UnexpectedCharacter '#'⟩,
       Except.error ⟨⟨1, 6⟩, ErrorKind.UnexpectedCharacter '#'⟩,
       Except.ok ⟨Tok.Identifier "bang", ⟨1, 7⟩, "bang"⟩] :=
  ⟨fun s c rest h1 h2 => step_unrecognized h1 h2, by rfl⟩

/-- C2 (witness): the general part evaluated at a concrete scanner holding `@`. -/
theorem lex_C2_witness :
    (lex_step (Scan.new "@")).1 = some (Except.error
      ⟨⟨1, 1⟩, ErrorKind.UnexpectedCharacter '@'⟩) ∧
    (lex_step (Scan.new "@")).2.pending = [] ∧
    (lex_step (Scan.new "@")).2.column = 1 + 1 ∧
    (lex_step (Scan.new "@")).2.line_number = 1 :=
  lex_C2_error_recovery.1 (Scan.new "@") '@' [] (by rfl) (by decide)

/-- C3: a double-quoted literal opened by a `"` with no closing quote in the rest of
the input makes the string scan emit exactly one `UnterminatedString` error, placed
at the opening quote, with no token for the unit; the whole remaining input is
consumed. The final conjunct checks the claimed concrete case. -/
theorem lex_C3_unterminated_string :
    (∀ (s : Scan) (rest : List Char), s.pending = '"' :: rest → '"' ∉ rest →
      (lex_step s).1 = some (Except.error
        ⟨⟨s.line_number, s.column⟩, ErrorKind.UnterminatedString⟩) ∧
      (lex_step s).2.pending = []) ∧
    lex "\"going along..." =
      [Except.error ⟨⟨1, 1⟩, ErrorKind.UnterminatedString⟩] :=
  ⟨fun s rest h1 h2 => step_string_unterminated h1 h2, by rfl⟩

/-- C3 (witness): the general part evaluated at a concrete scanner holding an
unterminated string opening. -/
theorem lex_C3_witness :
    (lex_step (Scan.new "\"ab")).1 = some (Except.error
      ⟨⟨1, 1⟩, ErrorKind.UnterminatedString⟩) ∧
    (lex_step (Scan.new "\"ab")).2.pending = [] :=
  lex_C3_unterminated_string.1 (Scan.new "\"ab") ['a', 'b'] (by rfl) (by decide)

/-- C6: advancing the position by a tab moves the column to the least strictly larger
value congruent to 1 modulo 8 (tab stops 1, 9, 17, …, always advancing by at least
one column); a newline resets the column to 1 and increments the line; any other
character adds exactly 1 to the column. The scanner's inline update in `Scan::take`
agrees with `Place::advance`, and lexing a tab followed by an identifier places the
identifier at column 9. -/
theorem lex_C6_tab_stops :
    (∀ col : Nat, tabColumns col % 8 = 1 ∧ col < tabColumns col ∧
      ∀ m, col < m → m % 8 = 1 → tabColumns col ≤ m) ∧
    (∀ p : Place, Place.advance p '\t' = ⟨p.line, tabColumns p.column⟩) ∧
    (∀ p : Place, Place.advance p '\n' = ⟨p.line + 1, 1⟩) ∧
    (∀ (p : Place) (c : Char), c ≠ '\n' → c ≠ '\t' →
      Place.advance p c = ⟨p.line, p.column + 1⟩) ∧
    (∀ (s : Scan) (c : Char),
      (s.record c).line_number = (Place.advance ⟨s.line_number, s.column⟩ c).line ∧
      (s.record c).column = (Place.advance ⟨s.line_number, s.column⟩ c).column) ∧
    lex "\tone_tab" = [Except.ok ⟨Tok.Identifier "one_tab", ⟨1, 9⟩, "one_tab"⟩] := by
  refine ⟨tabColumns_spec, ?_, ?_, ?_, ?_, by rfl⟩
  · intro p
    unfold Place.advance
    rw [if_neg (by decide), if_pos (Eq.refl _)]
  · intro p
    unfold Place.advance
    rw [if_pos (Eq.refl _)]
  · intro p c h1 h2
    unfold Place.advance
    rw [if_neg h1, if_neg h2]
  · intro s c
    unfold Scan.record Place.advance
    by_cases h1 : c = '\n'
    · simp [h1]
    · by_cases h2 : c = '\t' <;> simp [h1, h2]

/-- C6 (witness): the other-character clause evaluated at a concrete place and
character. -/
theorem lex_C6_witness : Place.advance ⟨1, 1⟩ 'x' = ⟨1, 1 + 1⟩ :=
  lex_C6_tab_stops.2.2.2.1 ⟨1, 1⟩ 'x' (by decide) (by decide)

/-- C8: the identifier and keyword scan consumes the maximal run of ASCII
alphanumerics and underscores at the head of the pending stream and classifies the
accumulated text by case-sensitive exact match against the fixed keyword table
(including `true`, `false` and `nil`); any spelling outside the table becomes an
`Identifier` carrying exactly that text. -/
theorem lex_C8_keywords :
    (∀ s : Scan,
      (word s).1 = word_tok ⟨s.current_token.data ++
        s.pending.takeWhile (fun c => c.isAlphanum || c == '_')⟩ ∧
      (word s).2.pending = s.pending.dropWhile (fun c => c.isAlphanum || c == '_') ∧
      (word s).2.current_token.data = s.current_token.data ++
        s.pending.takeWhile (fun c => c.isAlphanum || c == '_')) ∧
    (word_tok "and" = Tok.And ∧ word_tok "class" = Tok.Class ∧
     word_tok "else" = Tok.Else ∧ word_tok "false" = Tok.False ∧
     word_tok "for" = Tok.For ∧ word_tok "fun" = Tok.Fun ∧
     word_tok "if" = Tok.If ∧ word_tok "nil" = Tok.Nil ∧
     word_tok "or" = Tok.Or ∧ word_tok "print" = Tok.Print ∧
     word_tok "return" = Tok.Return ∧ word_tok "super" = Tok.Super ∧
     word_tok "this" = Tok.This ∧ word_tok "true" = Tok.True ∧
     word_tok "var" = Tok.Var ∧ word_tok "while" = Tok.While) ∧
    (∀ str : String, str ∉ keywordSpellings → word_tok str = Tok.Identifier str) := by
  refine ⟨?_, ?_, word_tok_non_keyword⟩
  · intro s
    obtain ⟨w1, w2, w3, _, _, _, _⟩ := word_spec s
    exact ⟨w1, w2, w3⟩
  · exact ⟨by rfl, by rfl, by rfl, by rfl, by rfl, by rfl, by rfl, by rfl, by rfl,
      by rfl, by rfl, by rfl, by rfl, by rfl, by rfl, by rfl⟩

/-- C8 (witness): the non-keyword clause evaluated at a concrete spelling. -/
theorem lex_C8_witness : word_tok "maybe" = Tok.Identifier "maybe" :=
  lex_C8_keywords.2.2 "maybe" (by decide)

/-- C9: the lexer is a pure, deterministic function of its input: lexing equal input
strings yields identical result sequences — same entries, same order, same kinds,
positions and lexemes. The shallow embedding makes this literal: `lex` is a function
of the source string alone, with no other state. -/
theorem lex_C9_deterministic : ∀ s1 s2 : String, s1 = s2 → lex s1 = lex s2 :=
  fun _ _ h => congrArg lex h

/-- C9 (witness): determinism evaluated at a concrete input. -/
theorem lex_C9_witness : lex "a" = lex "a" :=
  lex_C9_deterministic "a" "a" (Eq.refl _)

/-- C10: every `Number` token the lexer ever emits carries as numeric text exactly
its own lexeme; that text is a non-empty run of ASCII digits optionally followed by
a dot and a further non-empty digit run, and every such text is accepted by the
grammar of the Rust standard library `f64` parse — so the `parse().unwrap()` at
src/lex.rs:181 can never panic. -/
theorem lex_C10_number_parse_total :
    ∀ (source : String) (en : Except Error Token) (t : Token) (v : String),
      en ∈ lex source → en = Except.ok t → t.tok = Tok.Number v →
      v = t.lexeme ∧ numShape v.data = true ∧ f64FromStrAccepts v = true := by
  intro source en t v hmem het htok
  obtain ⟨hshape, hveq⟩ := lex_go_number_shape (source.length + 1) (Scan.new source)
    en hmem t v het htok
  exact ⟨hveq, hshape, numShape_accepted hshape⟩

/-- C10 (witness): the invariant evaluated on the sole token of the input `7`. -/
theorem lex_C10_witness :
    ("7" : String) = (⟨Tok.Number "7", ⟨1, 1⟩, "7"⟩ : Token).lexeme ∧
    numShape ("7" : String).data = true ∧ f64FromStrAccepts "7" = true :=
  lex_C10_number_parse_total "7" (Except.ok ⟨Tok.Number "7", ⟨1, 1⟩, "7"⟩)
    ⟨Tok.Number "7", ⟨1, 1⟩, "7"⟩ "7" (by decide) (by rfl) (by rfl)

/-- One unfolding of the `lex_go` loop, specialised to a step known to emit
an entry. -/
theorem lex_go_cons_eq {fuel : Nat} {s s2 : Scan} {e : Except Error Token}
    (hne : s.pending ≠ []) (hstep : lex_step (s.is_empty).2 = (some e, s2)) :
    lex_go (fuel + 1) s = e :: lex_go fuel s2 := by
  rw [lex_go_cons fuel s hne, hstep]

/-- C7: an input consisting entirely of ASCII digits lexes to exactly one entry:
an `Ok` token whose kind is `Number`, placed at line 1 column 1, whose lexeme is the
whole input; and the numeric text is accepted by the `f64` parse grammar. -/
theorem lex_C7_all_digits (ds : List Char) (hne : ds ≠ [])
    (hdig : ∀ c ∈ ds, c.isDigit = true) :
    lex ⟨ds⟩ = [Except.ok ⟨Tok.Number ⟨ds⟩, ⟨1, 1⟩, ⟨ds⟩⟩] ∧
    f64FromStrAccepts ⟨ds⟩ = true := by
  refine ⟨?_, numShape_accepted (numShape_digits hne hdig)⟩
  rcases ds with _ | ⟨d, rest⟩
  · exact absurd (Eq.refl _) hne
  have hd : d.isDigit = true := hdig d (by simp)
  have hrest : ∀ c ∈ rest, c.isDigit = true := fun c hc => hdig c (by simp [hc])
  obtain ⟨htw, hdw⟩ := @takeWhile_all_append Char.isDigit rest [] hrest (fun c hc => by cases hc)
  rw [List.append_nil] at htw hdw
  have hp0 : (Scan.new ⟨d :: rest⟩).pending = d :: rest := Eq.refl _
  have hne0 : (Scan.new ⟨d :: rest⟩).pending ≠ [] := by
    rw [hp0]
    exact List.cons_ne_nil _ _
  have ie2 : ObsEq (Scan.new ⟨d :: rest⟩) ((Scan.new ⟨d :: rest⟩).is_empty).2 :=
    (is_empty_spec _).2
  have hs1p : ((Scan.new ⟨d :: rest⟩).is_empty).2.pending = d :: rest := by
    rw [ie2.pending, hp0]
  obtain ⟨e1, e2, e3, e4⟩ := step_digit_nofrac hs1p hd
    (by intro d2 r2 habs; rw [hdw] at habs; cases habs)
  rw [htw] at e1
  have hln : ((Scan.new ⟨d :: rest⟩).is_empty).2.line_number = 1 := ie2.line
  have hcol : ((Scan.new ⟨d :: rest⟩).is_empty).2.column = 1 := ie2.column
  rw [hln, hcol] at e1
  have hstep : lex_step ((Scan.new ⟨d :: rest⟩).is_empty).2 =
      (some (Except.ok ⟨Tok.Number ⟨d :: rest⟩, ⟨1, 1⟩, ⟨d :: rest⟩⟩),
       (lex_step ((Scan.new ⟨d :: rest⟩).is_empty).2).2) := by
    rw [← e1]
  have hmain : lex ⟨d :: rest⟩ =
      (Except.ok ⟨Tok.Number ⟨d :: rest⟩, ⟨1, 1⟩, ⟨d :: rest⟩⟩ : Except Error Token) ::
        lex_go (rest.length + 1) (lex_step ((Scan.new ⟨d :: rest⟩).is_empty).2).2 :=
    lex_go_cons_eq hne0 hstep
  have e2' : (lex_step ((Scan.new ⟨d :: rest⟩).is_empty).2).2.pending = [] := by
    rw [e2, hdw]
  rw [hmain, lex_go_nil e2']

/-- C7 (witness): the all-digit theorem evaluated at the repository's own
`12345` example. -/
theorem lex_C7_witness :
    lex ⟨['1', '2', '3', '4', '5']⟩ =
      [Except.ok ⟨Tok.Number ⟨['1', '2', '3', '4', '5']⟩, ⟨1, 1⟩,
        ⟨['1', '2', '3', '4', '5']⟩⟩] ∧
    f64FromStrAccepts ⟨['1', '2', '3', '4', '5']⟩ = true :=
  lex_C7_all_digits ['1', '2', '3', '4', '5'] (by decide) (by decide)

/-- C4: number scanning takes the maximal run of digits, and consumes a decimal
point only when it is immediately followed by a further digit — so a digit run
followed by a trailing `.` lexes as a `Number` of just the digits followed by a
`Dot` token, while `3.1415` lexes as the single number `3.1415` (and `1234.` as
the number `1234` then `Dot`, the repository's own examples). -/
theorem lex_C4_number_maximal_munch :
    (∀ (d : Char) (ds : List Char), d.isDigit = true → (∀ c ∈ ds, c.isDigit = true) →
      lex ⟨d :: ds ++ ['.']⟩ =
        [Except.ok ⟨Tok.Number ⟨d :: ds⟩, ⟨1, 1⟩, ⟨d :: ds⟩⟩,
         Except.ok ⟨Tok.Dot, ⟨1, ds.length + 2⟩, "."⟩]) ∧
    lex "3.1415" = [Except.ok ⟨Tok.Number "3.1415", ⟨1, 1⟩, "3.1415"⟩] ∧
    lex "1234." = [Except.ok ⟨Tok.Number "1234", ⟨1, 1⟩, "1234"⟩,
      Except.ok ⟨Tok.Dot, ⟨1, 5⟩, "."⟩] := by
  refine ⟨?_, by rfl, by rfl⟩
  intro d ds hd hds
  obtain ⟨htw, hdw⟩ := @takeWhile_all_append Char.isDigit ds ['.'] hds
    (by intro c hc; simp at hc; subst hc; decide)
  set s0 := Scan.new ⟨d :: ds ++ ['.']⟩ with hs0
  have hlenA : lex ⟨d :: ds ++ ['.']⟩ = lex_go (ds.length + 1 + 1 + 1) s0 := by
    show lex_go ((⟨d :: ds ++ ['.']⟩ : String).length + 1) s0 = _
    congr 1
    show (d :: ds ++ ['.']).length + 1 = ds.length + 1 + 1 + 1
    simp
  have hp0 : s0.pending = d :: (ds ++ ['.']) := by rw [hs0]; rfl
  have hne0 : s0.pending ≠ [] := by
    rw [hp0]
    exact List.cons_ne_nil _ _
  set s1 := (s0.is_empty).2 with hs1
  have ie2 : ObsEq s0 s1 := (is_empty_spec s0).2
  have hs1p : s1.pending = d :: (ds ++ ['.']) := by rw [ie2.pending, hp0]
  obtain ⟨e1, e2, e3, e4⟩ := step_digit_nofrac hs1p hd
    (by intro d2 r2 habs
        rw [hdw] at habs
        injection habs with h1 h2
        cases h2)
  rw [htw] at e1 e3
  have hln1 : s1.line_number = 1 := ie2.line
  have hcol1 : s1.column = 1 := ie2.column
  rw [hln1, hcol1] at e1
  set s2 := (lex_step s1).2 with hs2
  have hstep1 : lex_step s1 =
      (some (Except.ok ⟨Tok.Number ⟨d :: ds⟩, ⟨1, 1⟩, ⟨d :: ds⟩⟩), s2) := by
    rw [← e1]
  have hmain1 : lex_go (ds.length + 1 + 1 + 1) s0 =
      (Except.ok ⟨Tok.Number ⟨d :: ds⟩, ⟨1, 1⟩, ⟨d :: ds⟩⟩ : Except Error Token) ::
        lex_go (ds.length + 1 + 1) s2 := lex_go_cons_eq hne0 hstep1
  rw [hdw] at e2
  have e3' : s2.column = ds.length + 2 := by rw [e3, hcol1]; omega
  have e4' : s2.line_number = 1 := by rw [e4, hln1]
  have hne2 : s2.pending ≠ [] := by
    rw [e2]
    exact List.cons_ne_nil _ _
  set s3 := (s2.is_empty).2 with hs3
  have ie3 : ObsEq s2 s3 := (is_empty_spec s2).2
  have hs3p : s3.pending = '.' :: [] := by rw [ie3.pending]; exact e2
  obtain ⟨f1, f2, f3, f4⟩ := step_dot hs3p
  have hln3 : s3.line_number = 1 := by rw [ie3.line]; exact e4'
  have hcol3 : s3.column = ds.length + 2 := by rw [ie3.column]; exact e3'
  rw [hln3, hcol3] at f1
  set s4 := (lex_step s3).2 with hs4
  have hstep2 : lex_step s3 =
      (some (Except.ok ⟨Tok.Dot, ⟨1, ds.length + 2⟩, "."⟩), s4) := by
    rw [← f1]
  have hmain2 : lex_go (ds.length + 1 + 1) s2 =
      (Except.ok ⟨Tok.Dot, ⟨1, ds.length + 2⟩, "."⟩ : Except Error Token) ::
        lex_go (ds.length + 1) s4 := lex_go_cons_eq hne2 hstep2
  rw [hlenA, hmain1, hmain2, lex_go_nil f2]

/-- C4 (witness): the maximal-munch theorem evaluated at the digits `1234`
followed by a trailing dot. -/
theorem lex_C4_witness :
    lex ⟨'1' :: ['2', '3', '4'] ++ ['.']⟩ =
      [Except.ok ⟨Tok.Number ⟨'1' :: ['2', '3', '4']⟩, ⟨1, 1⟩,
        ⟨'1' :: ['2', '3', '4']⟩⟩,
       Except.ok ⟨Tok.Dot, ⟨1, (['2', '3', '4'] : List Char).length + 2⟩, "."⟩] :=
  lex_C4_number_maximal_munch.1 '1' ['2', '3', '4'] (by decide) (by decide)

/-- C5: every `Ok` token the lexer emits has as its lexeme exactly the characters
consumed since the start-of-token mark — the step that produces it splits the
pending input as lexeme ++ rest — and carries as its place the line and column of
the mark, i.e. the scanner position where the token began. Lifted to whole runs:
every emitted token's lexeme occurs contiguously in the source. The final conjunct
checks the repository's multi-line string example: the token spans three lines but
is placed at line 1 column 1, with the full quoted text as lexeme. -/
theorem lex_C5_lexeme_invariant :
    (∀ (s : Scan) (e : Except Error Token) (s2 : Scan) (t : Token),
      lex_step s = (some e, s2) → e = Except.ok t →
      ∃ cs, s.pending = cs ++ s2.pending ∧ t.lexeme.data = cs ∧
        t.place = ⟨s.line_number, s.column⟩) ∧
    (∀ (source : String) (en : Except Error Token) (t : Token),
      en ∈ lex source → en = Except.ok t →
      ∃ pre post, source.data = pre ++ t.lexeme.data ++ post) ∧
    lex "\"one\nokapi\ntwo\n\"" =
      [Except.ok ⟨Tok.String "one\nokapi\ntwo\n", ⟨1, 1⟩, "\"one\nokapi\ntwo\n\""⟩] := by
  refine ⟨?_, ?_, by rfl⟩
  · intro s e s2 t h het
    exact lex_step_ok_invariant h t het
  · intro source en t hmem het
    exact lex_go_lexeme_substring (source.length + 1) (Scan.new source) en hmem t het

/-- C5 (witness): the step-level invariant evaluated at a scanner holding `+`. -/
theorem lex_C5_witness :
    ∃ cs, (Scan.new "+").pending = cs ++ (lex_step (Scan.new "+")).2.pending ∧
      (⟨Tok.Plus, ⟨1, 1⟩, "+"⟩ : Token).lexeme.data = cs ∧
      (⟨Tok.Plus, ⟨1, 1⟩, "+"⟩ : Token).place =
        ⟨(Scan.new "+").line_number, (Scan.new "+").column⟩ :=
  lex_C5_lexeme_invariant.1 (Scan.new "+")
    (Except.ok ⟨Tok.Plus, ⟨1, 1⟩, "+"⟩) (lex_step (Scan.new "+")).2
    ⟨Tok.Plus, ⟨1, 1⟩, "+"⟩ (by rfl) (by rfl)
